import Mathlib

/-!
Verification of the GSPMI (Generalized Sequential Pattern Mining with
Interval) engine, embedded from the repository sources.  The repository
carries two near-identical copies of the engine: the free-function copy in
gspmi.py and the class copy Gspmi in seqpat/gspmi.py (intseqpat/gspmi.py
repeats the class copy).  Both copies are embedded below; they share every
definition except the recursive miner, where the free-function copy projects
the child database with the last element of the current prefix and recurses
with an unchanged prefix, while the class copy projects with the candidate
pair and recurses with the extended prefix.

Python floats serving as infinite bounds are modelled as the none case of
an optional integer; a fractional min_support is modelled as a rational;
element labels (opaque totally ordered hashables in the source) are
modelled as natural numbers.
-/

set_option maxHeartbeats 1000000

/-- Elements: opaque, totally ordered labels, modelled as naturals. -/
abbrev Elem := ℕ

/-- Item of a sequence: raw interval from the beginning of the containing
sequence, plus a set of elements (class Item in the source). -/
structure Item where
  interval : ℤ
  elements : Finset Elem
deriving DecidableEq

/-- Pair of a pattern: itemized interval from the previous pair plus one
element (class Pair in the source). -/
structure Pair where
  interval : ℤ
  element : Elem
deriving DecidableEq

/-- A mined pattern: pair sequence, support count, whole interval
(class Pattern in the source). -/
structure Pattern where
  sequence : List Pair
  support : ℕ
  whole_interval : ℤ
deriving DecidableEq

/-- Insertion of an element into a sorted list (kernel-reducible sorting,
used in place of the opaque merge sort behind Finset.sort). -/
def insortElem (e : Elem) : List Elem → List Elem
  | [] => [e]
  | x :: xs => if e ≤ x then e :: x :: xs else x :: insortElem e xs

instance : LeftCommutative insortElem := by
  constructor
  intro a b l
  induction l with
  | nil =>
    by_cases h1 : a ≤ b
    · by_cases h2 : b ≤ a
      · have : a = b := le_antisymm h1 h2
        subst this
        rfl
      · simp [insortElem, h1, h2]
    · by_cases h2 : b ≤ a
      · simp [insortElem, h1, h2]
      · exact absurd (le_of_not_le h1) h2
  | cons x xs ih =>
    by_cases h1 : a ≤ x
    · by_cases h2 : b ≤ x
      · by_cases h3 : a ≤ b
        · by_cases h4 : b ≤ a
          · have : a = b := le_antisymm h3 h4
            subst this
            rfl
          · simp [insortElem, h1, h2, h3, h4]
        · have h4 : b ≤ a := le_of_not_le h3
          simp [insortElem, h1, h2, h3, h4]
      · have h3 : a ≤ b := le_trans h1 (le_of_not_le h2)
        have h4 : ¬b ≤ a := fun hb => h2 (le_trans hb h1)
        simp [insortElem, h1, h2, h3, h4]
    · by_cases h2 : b ≤ x
      · have h3 : b ≤ a := le_trans h2 (le_of_not_le h1)
        have h4 : ¬a ≤ b := fun ha => h1 (le_trans ha h2)
        simp [insortElem, h1, h2, h3, h4]
      · simp [insortElem, h1, h2, ih]

/-- The sorted list of elements of a finite set, by insertion sort; agrees
with Finset.sort, see sortedElems_eq. -/
def sortedElems (E : Finset Elem) : List Elem :=
  Multiset.foldr insortElem [] E.val

theorem insortElem_perm (e : Elem) :
    ∀ l : List Elem, List.Perm (insortElem e l) (e :: l) := by
  intro l
  induction l with
  | nil => exact List.Perm.refl _
  | cons x xs ih =>
    rw [insortElem]
    split
    · exact List.Perm.refl _
    · exact (List.Perm.cons x ih).trans (List.Perm.swap _ _ _)

theorem insortElem_sorted {e : Elem} :
    ∀ {l : List Elem}, l.Sorted (· ≤ ·) → (insortElem e l).Sorted (· ≤ ·) := by
  intro l
  induction l with
  | nil => intro h; simp [insortElem]
  | cons x xs ih =>
    intro h
    rw [List.sorted_cons] at h
    rw [insortElem]
    split
    · rename_i hle
      rw [List.sorted_cons]
      constructor
      · intro b hb
        rcases List.mem_cons.mp hb with h1 | h1
        · subst h1
          exact hle
        · exact le_trans hle (h.1 b h1)
      · rw [List.sorted_cons]
        exact h
    · rename_i hle
      rw [List.sorted_cons]
      constructor
      · intro b hb
        have hmem := (insortElem_perm e xs).mem_iff.mp hb
        rcases List.mem_cons.mp hmem with h1 | h1
        · subst h1
          exact le_of_not_le hle
        · exact h.1 b h1
      · exact ih h.2

theorem foldr_insort_perm :
    ∀ l : List Elem, List.Perm (l.foldr insortElem []) l := by
  intro l
  induction l with
  | nil => exact List.Perm.refl _
  | cons x xs ih =>
    rw [List.foldr_cons]
    exact (insortElem_perm _ _).trans (List.Perm.cons x ih)

theorem foldr_insort_sorted :
    ∀ l : List Elem, (l.foldr insortElem []).Sorted (· ≤ ·) := by
  intro l
  induction l with
  | nil => simp
  | cons x xs ih => exact insortElem_sorted ih

theorem sortedElems_eq (E : Finset Elem) :
    sortedElems E = E.sort (· ≤ ·) := by
  obtain ⟨l, hl⟩ := Quot.exists_rep E.val
  have hfold : sortedElems E = l.foldr insortElem [] := by
    unfold sortedElems
    rw [← hl]
    rfl
  have hsortperm : ((E.sort (· ≤ ·) : List Elem) : Multiset Elem) = E.val :=
    Multiset.sort_eq _ _
  rw [← hl] at hsortperm
  have h2 : List.Perm (E.sort (· ≤ ·)) l := Multiset.coe_eq_coe.mp hsortperm
  refine List.eq_of_perm_of_sorted ?_ (hfold ▸ foldr_insort_sorted l)
    (Finset.sort_sorted _ _)
  rw [hfold]
  exact (foldr_insort_perm l).trans h2.symm

theorem mem_sortedElems {E : Finset Elem} {e : Elem} :
    e ∈ sortedElems E ↔ e ∈ E := by
  rw [sortedElems_eq]
  exact Finset.mem_sort _

/-- The inner helper exclude of generate_postfixes: sort the element set and
keep everything strictly after the position of the projector element.  The
source expression elements.index raises ValueError when the element is
absent; this total version returns the empty set there (findIdx runs off the
end), and excludeChecked below models the possible exception. -/
def exclude (elements : Finset Elem) (element : Elem) : Finset Elem :=
  ((sortedElems elements).drop
    ((sortedElems elements).findIdx (· == element) + 1)).toFinset

/-- Checked version of exclude: none exactly when elements.index(element)
would raise ValueError. -/
def excludeChecked (elements : Finset Elem) (element : Elem) :
    Option (Finset Elem) :=
  match (sortedElems elements).findIdx? (· == element) with
  | none => none
  | some i => some (((sortedElems elements).drop (i + 1)).toFinset)

/-- The postfix built at a matched item: the within-item residual head when
it is non-empty (Python truthiness of the set), followed by every later item
rebased to the matched item's interval. -/
def matchBody (it : Item) (rest : List Item) (element : Elem) : List Item :=
  (if exclude it.elements element = ∅ then []
   else [⟨0, exclude it.elements element⟩]) ++
    rest.map (fun j => ⟨j.interval - it.interval, j.elements⟩)

/-- Embedding of generate_postfixes (identical in both source copies): walk
the sequence; on an element match that is also an exact itemized-interval
match unless level1, yield the postfix; stop after the first yield unless
level1. -/
def generate_postfixes (itemize : ℤ → ℤ) :
    List Item → Pair → Bool → List (List Item)
  | [], _, _ => []
  | it :: rest, projector, level1 =>
    if projector.element ∈ it.elements ∧
        (level1 = true ∨ itemize it.interval = projector.interval) then
      matchBody it rest projector.element ::
        (if level1 then generate_postfixes itemize rest projector level1 else [])
    else
      generate_postfixes itemize rest projector level1

/-- Python truthiness on a list: an empty list is dropped, anything else is
kept as is. -/
def keepNonempty {α : Type} : List α → Option (List α)
  | [] => none
  | ps => some ps

/-- The postfix a deeper-level projection keeps from one sequence:
next(generate_postfixes(...), None) takes the first yielded postfix, and the
truthiness test of project discards a missing or empty one. -/
def firstPostfix (itemize : ℤ → ℤ) (projector : Pair) (sequence : List Item) :
    Option (List Item) :=
  match generate_postfixes itemize sequence projector false with
  | [] => none
  | p :: _ => if p = [] then none else some p

/-- Embedding of project_level1: one group per input sequence that produced
at least one postfix (the kept list may contain empty postfixes). -/
def project_level1 (itemize : ℤ → ℤ) (sequences : List (List Item))
    (projector : Pair) : List (List (List Item)) :=
  sequences.filterMap (fun sequence =>
    keepNonempty (generate_postfixes itemize sequence projector true))

/-- Embedding of project: keep the first non-empty postfix of each postfix of
each group; a group that retains no postfix is dropped. -/
def project (itemize : ℤ → ℤ) (projected_db : List (List (List Item)))
    (projector : Pair) : List (List (List Item)) :=
  projected_db.filterMap (fun sequences =>
    keepNonempty (sequences.filterMap (firstPostfix itemize projector)))

/-- The configuration attributes of the Gspmi class (seqpat/gspmi.py); the
free-function copy passes the same values as explicit arguments.  Infinite
bounds are the none case. -/
structure Gspmi where
  itemize : ℤ → ℤ
  min_support : ℤ
  min_interval : ℤ
  max_interval : Option ℤ
  min_whole_interval : ℤ
  max_whole_interval : Option ℤ

/-- The inter-item gap gate of the candidate counter:
min_interval <= interval - previous <= max_interval, an infinite
max_interval accepting every gap. -/
def gapOK (g : Gspmi) (d : ℤ) : Bool :=
  decide (g.min_interval ≤ d) &&
    (match g.max_interval with
     | none => true
     | some m => decide (d ≤ m))

/-- Candidate pairs contributed by one postfix: walk the items left to
right, previous tracking the last visited interval regardless of the gate,
and emit one Pair (itemize interval, e) per element when the gap passes. -/
def postfixPairs (g : Gspmi) : ℤ → List Item → List Pair
  | _, [] => []
  | previous, it :: rest =>
    (if gapOK g (it.interval - previous) then
      (sortedElems it.elements).map (fun e => ⟨g.itemize it.interval, e⟩)
    else []) ++ postfixPairs g it.interval rest

/-- The per-group candidate set (the set named pairs in the source): one
occurrence per group however many postfixes or positions produce a pair. -/
def groupPairs (g : Gspmi) (sequences : List (List Item)) : List Pair :=
  (sequences.flatMap (postfixPairs g 0)).dedup

/-- The Counter of mine_subpatterns: every candidate pair with the number of
groups whose candidate set contains it.  Python's Counter key order depends
on the unspecified iteration order of the per-group sets, and only the key
set and the counts are observable in the mined results, so the keys are
listed in first-occurrence order of the flattened group scan. -/
def counterItems (g : Gspmi) (projected_db : List (List (List Item))) :
    List (Pair × ℕ) :=
  (projected_db.flatMap (groupPairs g)).dedup.map
    (fun p => (p, projected_db.countP (fun grp => decide (p ∈ groupPairs g grp))))

/-- The max_whole_interval gate: isinf(max_whole_interval) or
whole_interval <= itemize(max_whole_interval). -/
def wholeOK (g : Gspmi) (whole : ℤ) : Bool :=
  match g.max_whole_interval with
  | none => true
  | some m => decide (whole ≤ g.itemize m)

/-- Termination measure: total element count of a postfix. -/
def postfixW (p : List Item) : ℕ := (p.map (fun it => it.elements.card)).sum

/-- Termination measure: total element count of a group. -/
def groupW (grp : List (List Item)) : ℕ := (grp.map postfixW).sum

/-- Termination measure: total element count of a projected database. -/
def pdbW (db : List (List (List Item))) : ℕ := (db.map groupW).sum

theorem keepNonempty_eq_some {α : Type} {l x : List α}
    (h : keepNonempty l = some x) : x = l ∧ l ≠ [] := by
  cases l with
  | nil => simp [keepNonempty] at h
  | cons a t =>
    simp only [keepNonempty, Option.some.injEq] at h
    subst h
    exact ⟨rfl, by simp⟩

theorem keepNonempty_of_ne {α : Type} {l : List α} (h : l ≠ []) :
    keepNonempty l = some l := by
  cases l with
  | nil => exact absurd rfl h
  | cons a t => rfl

theorem firstPostfix_eq_some {itemize : ℤ → ℤ} {pr : Pair} {s p : List Item}
    (h : firstPostfix itemize pr s = some p) :
    p ∈ generate_postfixes itemize s pr false ∧ p ≠ [] := by
  unfold firstPostfix at h
  split at h
  · cases h
  · rename_i q qs heq
    split at h
    · cases h
    · rename_i hq
      cases h
      rw [heq]
      exact ⟨List.mem_cons_self _ _, hq⟩

/-- On a strictly sorted list, dropping past the position of a member keeps
exactly the strictly larger entries. -/
theorem drop_findIdx_sorted {l : List ℕ} (hs : l.Sorted (· < ·)) {e : ℕ}
    (he : e ∈ l) :
    l.drop (l.findIdx (· == e) + 1) = l.filter (fun x => decide (e < x)) := by
  induction l with
  | nil => cases he
  | cons a t ih =>
    rw [List.sorted_cons] at hs
    by_cases hae : a = e
    · subst hae
      have h0 : (a :: t).findIdx (· == a) = 0 := by
        rw [List.findIdx_cons]
        simp
      rw [h0]
      simp only [List.drop_succ_cons, List.drop_zero, List.filter_cons]
      have hlt : ¬((decide (a < a)) = true) := by simp
      rw [if_neg hlt]
      symm
      rw [List.filter_eq_self]
      intro x hx
      simpa using hs.1 x hx
    · have he' : e ∈ t := by
        rcases List.mem_cons.mp he with h | h
        · exact absurd h.symm hae
        · exact h
      have hbe : (a == e) = false := by simpa using hae
      have hfi : (a :: t).findIdx (· == e) = t.findIdx (· == e) + 1 := by
        rw [List.findIdx_cons, hbe]
        rfl
      rw [hfi]
      have hae2 : a < e := hs.1 e he'
      have hna : ¬((decide (e < a)) = true) := by
        simp only [decide_eq_true_eq]
        omega
      simp only [List.drop_succ_cons, List.filter_cons, if_neg hna]
      exact ih hs.2 he'

/-- The sorted-index form of exclude agrees with the set of elements
strictly greater than the matched element. -/
theorem exclude_eq_filter {E : Finset Elem} {e : Elem} (he : e ∈ E) :
    exclude E e = E.filter (fun x => e < x) := by
  have hs : (E.sort (· ≤ ·)).Sorted (· < ·) := Finset.sort_sorted_lt E
  have hm : e ∈ E.sort (· ≤ ·) := (Finset.mem_sort _).mpr he
  unfold exclude
  rw [sortedElems_eq, drop_findIdx_sorted hs hm]
  ext x
  simp [List.mem_filter, Finset.mem_sort]

theorem exclude_card_lt {E : Finset Elem} {e : Elem} (he : e ∈ E) :
    (exclude E e).card < E.card := by
  rw [exclude_eq_filter he]
  apply Finset.card_lt_card
  constructor
  · exact Finset.filter_subset _ _
  · intro hsub
    have := hsub he
    simp at this

theorem postfixW_matchBody {it : Item} {rest : List Item} {e : Elem}
    (he : e ∈ it.elements) :
    postfixW (matchBody it rest e) < postfixW (it :: rest) := by
  unfold matchBody postfixW
  have hc : (exclude it.elements e).card < it.elements.card := exclude_card_lt he
  have hmap : ((rest.map (fun j => Item.mk (j.interval - it.interval) j.elements)).map
      (fun x => x.elements.card)).sum = (rest.map (fun x => x.elements.card)).sum := by
    rw [List.map_map]
    rfl
  by_cases hh : exclude it.elements e = ∅
  · rw [if_pos hh]
    simp only [List.nil_append, List.map_cons, List.sum_cons, hmap]
    have : 0 < it.elements.card := Finset.card_pos.mpr ⟨e, he⟩
    omega
  · rw [if_neg hh]
    simp only [List.cons_append, List.nil_append, List.map_cons,
      List.sum_cons, hmap]
    omega

theorem postfixW_of_mem_generate {itemize : ℤ → ℤ} {pr : Pair} {lvl : Bool} :
    ∀ {s p : List Item}, p ∈ generate_postfixes itemize s pr lvl →
      postfixW p < postfixW s := by
  intro s
  induction s with
  | nil => intro p hp; simp [generate_postfixes] at hp
  | cons it rest ih =>
    intro p hp
    rw [generate_postfixes] at hp
    split at hp
    · rename_i hcond
      rcases List.mem_cons.mp hp with h | h
      · subst h
        exact postfixW_matchBody hcond.1
      · split at h
        · have := ih h
          simp only [postfixW, List.map_cons, List.sum_cons] at *
          omega
        · cases h
    · have := ih hp
      simp only [postfixW, List.map_cons, List.sum_cons] at *
      omega

/-- Generic accounting for filterMap under a strictly decreasing weight. -/
theorem sum_filterMap_weight {α β : Type} {f : α → Option β} {wA : α → ℕ}
    {wB : β → ℕ} (h : ∀ a b, f a = some b → wB b + 1 ≤ wA a) :
    ∀ l : List α,
      ((l.filterMap f).map wB).sum + (l.filterMap f).length ≤ (l.map wA).sum := by
  intro l
  induction l with
  | nil => simp
  | cons a t ih =>
    cases hfa : f a with
    | none =>
      rw [List.filterMap_cons_none hfa]
      simp only [List.map_cons, List.sum_cons]
      omega
    | some b =>
      rw [List.filterMap_cons_some hfa]
      simp only [List.map_cons, List.sum_cons, List.length_cons]
      have := h a b hfa
      omega

theorem pdbW_project_lt {g : Gspmi} {db : List (List (List Item))} {pr : Pair}
    (hne : project g.itemize db pr ≠ []) :
    pdbW (project g.itemize db pr) < pdbW db := by
  have hkeep : ∀ (s p : List Item), firstPostfix g.itemize pr s = some p →
      postfixW p + 1 ≤ postfixW s := by
    intro s p hp
    exact postfixW_of_mem_generate (firstPostfix_eq_some hp).1
  have inner : ∀ (grp ps : List (List Item)),
      keepNonempty (grp.filterMap (firstPostfix g.itemize pr)) = some ps →
      groupW ps + 1 ≤ groupW grp := by
    intro grp ps hps
    obtain ⟨hx, hne'⟩ := keepNonempty_eq_some hps
    subst hx
    have hsum := sum_filterMap_weight hkeep grp
    have hlen : 1 ≤ (grp.filterMap (firstPostfix g.itemize pr)).length :=
      List.length_pos.mpr hne'
    simp only [groupW]
    omega
  have houter := @sum_filterMap_weight _ _ _ groupW groupW inner db
  unfold project at hne ⊢
  have hlen : 1 ≤ (db.filterMap (fun sequences =>
      keepNonempty (sequences.filterMap (firstPostfix g.itemize pr)))).length :=
    List.length_pos.mpr hne
  simp only [pdbW]
  omega

/-- The candidate loop of Gspmi._mine_subpatterns (seqpat/gspmi.py, the copy
that propagates the prefix correctly): for each counted candidate pair, gate
on support and on the whole-interval upper bound, project the child database
with the pair, recurse with prefix + [pair], then emit the extended pattern
when the whole-interval lower bound is met.  The recursive call on an empty
child database (which returns no patterns, as the Counter of an empty
database is empty) is inlined as [] so that the recursion is well-founded on
the total element count of the database. -/
def Gspmi.mineLoop (g : Gspmi) :
    List (List (List Item)) → List Pair → List (Pair × ℕ) → List Pattern
  | _, _, [] => []
  | pdb, pre, (pair, support) :: rest =>
    (if g.min_support ≤ (support : ℤ) ∧
        wholeOK g ((pre.map Pair.interval).sum + pair.interval) = true then
      (match hc : project g.itemize pdb pair with
       | [] => []
       | c :: cs =>
         Gspmi.mineLoop g (c :: cs) (pre ++ [pair]) (counterItems g (c :: cs))) ++
      (if g.itemize g.min_whole_interval ≤ (pre.map Pair.interval).sum + pair.interval then
        [⟨pre ++ [pair], support, (pre.map Pair.interval).sum + pair.interval⟩]
      else [])
    else []) ++ Gspmi.mineLoop g pdb pre rest
termination_by pdb _ cands => (pdbW pdb, cands.length)
decreasing_by
  · refine Prod.Lex.left _ _ ?_
    rw [← hc]
    exact pdbW_project_lt (by rw [hc]; simp)
  · exact Prod.Lex.right _ (by simp)

/-- Gspmi._mine_subpatterns of seqpat/gspmi.py. -/
def Gspmi.mine_subpatterns (g : Gspmi) (projected_db : List (List (List Item)))
    (pre : List Pair) : List Pattern :=
  Gspmi.mineLoop g projected_db pre (counterItems g projected_db)

/-- The candidate loop of mine_subpatterns in gspmi.py (the free-function
copy): identical gates and emission, but the child database is projected
with prefix[-1] (the last pair of the current prefix; mine only ever calls
this with a non-empty prefix, so the default value of getLastD is never
used) and the recursion receives the unchanged prefix. -/
def mineSrcLoop (g : Gspmi) :
    List (List (List Item)) → List Pair → List (Pair × ℕ) → List Pattern
  | _, _, [] => []
  | pdb, pre, (pair, support) :: rest =>
    (if g.min_support ≤ (support : ℤ) ∧
        wholeOK g ((pre.map Pair.interval).sum + pair.interval) = true then
      (match hc : project g.itemize pdb (pre.getLastD ⟨0, 0⟩) with
       | [] => []
       | c :: cs =>
         mineSrcLoop g (c :: cs) pre (counterItems g (c :: cs))) ++
      (if g.itemize g.min_whole_interval ≤ (pre.map Pair.interval).sum + pair.interval then
        [⟨pre ++ [pair], support, (pre.map Pair.interval).sum + pair.interval⟩]
      else [])
    else []) ++ mineSrcLoop g pdb pre rest
termination_by pdb _ cands => (pdbW pdb, cands.length)
decreasing_by
  · refine Prod.Lex.left _ _ ?_
    rw [← hc]
    exact pdbW_project_lt (by rw [hc]; simp)
  · exact Prod.Lex.right _ (by simp)

/-- mine_subpatterns of gspmi.py. -/
def mine_subpatterns (g : Gspmi) (projected_db : List (List (List Item)))
    (pre : List Pair) : List Pattern :=
  mineSrcLoop g projected_db pre (counterItems g projected_db)

/-- The distinct elements of one input sequence: the per-sequence set built
by the seeding scan of mine / mine_patterns, listed canonically (the
iteration order of the Python set is unspecified and unobservable in the
results). -/
def seqElements (sequence : List Item) : List Elem :=
  (sequence.flatMap (fun it => sortedElems it.elements)).dedup

/-- The level-1 Counter: each element with the number of input sequences
containing it. -/
def elementCounter (sequences : List (List Item)) : List (Elem × ℕ) :=
  (sequences.flatMap seqElements).dedup.map
    (fun e => (e, sequences.countP (fun s => decide (e ∈ seqElements s))))

/-- Gspmi._mine_subpatterns_level1 of seqpat/gspmi.py: the per-seed body.
Emits the single-pair seed pattern when pair.interval (always 0) is at
least min_whole_interval, then mines deeper patterns from the level-1
projected database. -/
def Gspmi.mine_subpatterns_level1 (g : Gspmi) (sequences : List (List Item))
    (element : Elem) (support : ℕ) : List Pattern :=
  if g.min_support ≤ (support : ℤ) then
    (if g.min_whole_interval ≤ (0 : ℤ) then
      [⟨[⟨0, element⟩], support, 0⟩] else []) ++
      Gspmi.mine_subpatterns g (project_level1 g.itemize sequences ⟨0, element⟩)
        [⟨0, element⟩]
  else []

/-- Gspmi.mine_patterns of seqpat/gspmi.py in serial mode (the
multiprocessing branch dispatches exactly the same per-seed bodies and
concatenates their results). -/
def Gspmi.mine_patterns (g : Gspmi) (sequences : List (List Item)) :
    List Pattern :=
  (elementCounter sequences).flatMap
    (fun es => Gspmi.mine_subpatterns_level1 g sequences es.1 es.2)

/-- The body of mine in gspmi.py after min_support resolution: like the
per-seed body of the class copy, except that the level-1 projected database
is tested for truthiness before mining deeper and the recursive miner is the
free-function copy. -/
def mineCore (g : Gspmi) (sequences : List (List Item)) : List Pattern :=
  (elementCounter sequences).flatMap (fun es =>
    if g.min_support ≤ (es.2 : ℤ) then
      (if g.min_whole_interval ≤ (0 : ℤ) then
        [⟨[⟨0, es.1⟩], es.2, 0⟩] else []) ++
        (match project_level1 g.itemize sequences ⟨0, es.1⟩ with
         | [] => []
         | c :: cs => mine_subpatterns g (c :: cs) [⟨0, es.1⟩])
    else [])

/-- mine of gspmi.py.  A min_support given as a float (modelled as a
rational) must lie in the unit interval, else ValueError is raised (modelled
as Except.error); in range it becomes ceil(len(sequences) * min_support).
An integral min_support is used as is. -/
def mine (sequences : List (List Item)) (itemize : ℤ → ℤ)
    (min_support : ℤ ⊕ ℚ) (min_interval : ℤ) (max_interval : Option ℤ)
    (min_whole_interval : ℤ) (max_whole_interval : Option ℤ) :
    Except String (List Pattern) :=
  match min_support with
  | .inl n =>
    .ok (mineCore ⟨itemize, n, min_interval, max_interval,
      min_whole_interval, max_whole_interval⟩ sequences)
  | .inr q =>
    if 0 ≤ q ∧ q ≤ 1 then
      .ok (mineCore ⟨itemize, ⌈(sequences.length : ℚ) * q⌉, min_interval,
        max_interval, min_whole_interval, max_whole_interval⟩ sequences)
    else
      .error "0 <= min_support <= 1"

/-- Checked embedding of generate_postfixes, threading the possible
ValueError of the inner exclude helper: none means the Python generator
would raise while being consumed. -/
def generate_postfixesChecked (itemize : ℤ → ℤ) :
    List Item → Pair → Bool → Option (List (List Item))
  | [], _, _ => some []
  | it :: rest, projector, level1 =>
    if projector.element ∈ it.elements ∧
        (level1 = true ∨ itemize it.interval = projector.interval) then
      match excludeChecked it.elements projector.element with
      | none => none
      | some head =>
        match (if level1 then generate_postfixesChecked itemize rest projector level1
               else some []) with
        | none => none
        | some ps =>
          some (((if head = ∅ then [] else [⟨0, head⟩]) ++
            rest.map (fun j => ⟨j.interval - it.interval, j.elements⟩)) :: ps)
    else generate_postfixesChecked itemize rest projector level1

theorem findIdx?_eq_some_findIdx {α : Type} {p : α → Bool} :
    ∀ {l : List α} (i : ℕ), (∃ x ∈ l, p x = true) →
      List.findIdx? p l i = some (i + l.findIdx p) := by
  intro l
  induction l with
  | nil => intro i h; simp at h
  | cons a t ih =>
    intro i h
    rw [List.findIdx?_cons, List.findIdx_cons]
    by_cases hpa : p a = true
    · rw [if_pos hpa, hpa]
      simp
    · rw [if_neg hpa]
      have hex : ∃ x ∈ t, p x = true := by
        rcases h with ⟨x, hx, hpx⟩
        rcases List.mem_cons.mp hx with h1 | h1
        · exact absurd (h1 ▸ hpx) hpa
        · exact ⟨x, h1, hpx⟩
      rw [ih (i + 1) hex]
      have hb : (p a) = false := by
        cases hv : p a
        · rfl
        · exact absurd hv hpa
      rw [hb]
      simp only [cond_false]
      congr 1
      omega

theorem excludeChecked_eq_some {E : Finset Elem} {e : Elem} (he : e ∈ E) :
    excludeChecked E e = some (exclude E e) := by
  unfold excludeChecked exclude
  have hex : ∃ x ∈ E.sort (· ≤ ·), (x == e) = true :=
    ⟨e, (Finset.mem_sort _).mpr he, by simp⟩
  rw [sortedElems_eq, findIdx?_eq_some_findIdx 0 hex]
  simp

/-- The guard of generate_postfixes establishes membership before exclude is
called, so the checked generator never reports a ValueError: it always
returns the postfix list of the total embedding. -/
theorem generate_postfixesChecked_total (itemize : ℤ → ℤ) (pr : Pair)
    (lvl : Bool) :
    ∀ s : List Item, generate_postfixesChecked itemize s pr lvl =
      some (generate_postfixes itemize s pr lvl) := by
  intro s
  induction s with
  | nil => rfl
  | cons it rest ih =>
    rw [generate_postfixesChecked, generate_postfixes]
    by_cases hcond : pr.element ∈ it.elements ∧
        (lvl = true ∨ itemize it.interval = pr.interval)
    · rw [if_pos hcond, if_pos hcond]
      rw [excludeChecked_eq_some hcond.1]
      cases lvl with
      | false =>
        simp only [if_neg (by simp : ¬(false = true))]
        rfl
      | true =>
        simp only [if_pos rfl, ih]
        rfl
    · rw [if_neg hcond, if_neg hcond]
      exact ih

/-- Concrete itemize: floor division by ten. -/
def itemizeTen : ℤ → ℤ := fun t => t / 10

/-- Concrete itemize: floor division by a day of seconds. -/
def itemizeDay : ℤ → ℤ := fun t => t / 86400

theorem project_members_nonempty (itemize : ℤ → ℤ)
    (db : List (List (List Item))) (pr : Pair) :
    ∀ grp ∈ project itemize db pr, grp ≠ [] ∧ ∀ p ∈ grp, p ≠ [] := by
  intro grp hgrp
  unfold project at hgrp
  rcases List.mem_filterMap.mp hgrp with ⟨seqs, hseqs, hk⟩
  obtain ⟨hgq, hne⟩ := keepNonempty_eq_some hk
  subst hgq
  refine ⟨hne, ?_⟩
  intro p hp
  rcases List.mem_filterMap.mp hp with ⟨s, hs, hfp⟩
  exact (firstPostfix_eq_some hfp).2

/-- Each item decorated with its strict suffix, in order. -/
def withTails {α : Type} : List α → List (α × List α)
  | [] => []
  | a :: t => (a, t) :: withTails t

/-- Specification-side definition (section 3, Postfix, step 1): the residual
set of elements strictly greater than the matched element. -/
def specResidual (E : Finset Elem) (e : Elem) : Finset Elem :=
  E.filter (fun x => e < x)

/-- Specification-side definition (section 3, Postfix): the postfix built at
a matched item, beginning with the within-item residual item exactly when
the residual set is non-empty, followed by all later items rebased. -/
def specPostfix (it : Item) (rest : List Item) (e : Elem) : List Item :=
  (if (specResidual it.elements e).Nonempty then [⟨0, specResidual it.elements e⟩]
   else []) ++ rest.map (fun j => ⟨j.interval - it.interval, j.elements⟩)

/-- Specification-side definition (section 4.2, level1 true): one postfix
per item whose element set contains the projector element, in sequence
order. -/
def level1Spec (s : List Item) (pr : Pair) : List (List Item) :=
  ((withTails s).filter (fun x => decide (pr.element ∈ x.1.elements))).map
    (fun x => specPostfix x.1 x.2 pr.element)

/-- Specification-side definition (section 4.2, level1 false): at most one
postfix, produced at the first item matching both the element and the
itemized interval of the projector. -/
def deepSpec (itemize : ℤ → ℤ) (s : List Item) (pr : Pair) :
    List (List Item) :=
  match (withTails s).find? (fun x =>
      decide (pr.element ∈ x.1.elements ∧ itemize x.1.interval = pr.interval)) with
  | none => []
  | some x => [specPostfix x.1 x.2 pr.element]

theorem matchBody_eq_specPostfix {it : Item} {rest : List Item} {e : Elem}
    (he : e ∈ it.elements) :
    matchBody it rest e = specPostfix it rest e := by
  unfold matchBody specPostfix specResidual
  rw [exclude_eq_filter he]
  by_cases h : it.elements.filter (fun x => e < x) = ∅
  · rw [if_pos h, if_neg (by rw [Finset.nonempty_iff_ne_empty]; simp [h])]
  · rw [if_neg h, if_pos (Finset.nonempty_iff_ne_empty.mpr h)]

theorem generate_level1_eq_spec (itemize : ℤ → ℤ) (pr : Pair) :
    ∀ s : List Item, generate_postfixes itemize s pr true = level1Spec s pr := by
  intro s
  induction s with
  | nil => rfl
  | cons it rest ih =>
    rw [generate_postfixes]
    unfold level1Spec withTails
    rw [List.filter_cons]
    by_cases he : pr.element ∈ it.elements
    · have hd : (decide (pr.element ∈ (it, rest).1.elements)) = true := by
        simpa using he
      rw [if_pos ⟨he, Or.inl rfl⟩, if_pos hd, List.map_cons,
        matchBody_eq_specPostfix he, ih]
      rfl
    · have hd : ¬((decide (pr.element ∈ (it, rest).1.elements)) = true) := by
        simpa using he
      rw [if_neg (fun hc => he hc.1), if_neg hd, ih]
      rfl

theorem generate_deep_eq_spec (itemize : ℤ → ℤ) (pr : Pair) :
    ∀ s : List Item, generate_postfixes itemize s pr false = deepSpec itemize s pr := by
  intro s
  induction s with
  | nil => rfl
  | cons it rest ih =>
    rw [generate_postfixes]
    unfold deepSpec withTails
    by_cases hc : pr.element ∈ it.elements ∧ itemize it.interval = pr.interval
    · rw [if_pos ⟨hc.1, Or.inr hc.2⟩]
      rw [List.find?_cons_of_pos _ (by simpa using hc)]
      rw [matchBody_eq_specPostfix hc.1]
      simp
    · have hc' : ¬(pr.element ∈ it.elements ∧
          (false = true ∨ itemize it.interval = pr.interval)) := by
        intro hx
        rcases hx.2 with h | h
        · cases h
        · exact hc ⟨hx.1, h⟩
      rw [if_neg hc']
      rw [List.find?_cons_of_neg _ (by simpa using hc)]
      rw [ih]
      rfl

/-- All interval-and-element matches of a projector in a sequence (the
non-deterministic counterpart of the first-match generator, used to state
the matching relation). -/
def genPostfixesAll (itemize : ℤ → ℤ) : List Item → Pair → List (List Item)
  | [], _ => []
  | it :: rest, pr =>
    (if pr.element ∈ it.elements ∧ itemize it.interval = pr.interval then
      [matchBody it rest pr.element] else []) ++ genPostfixesAll itemize rest pr

/-- The chained matching relation on a postfix: each pair is realized at
some item of the current postfix whose itemized (rebased) interval equals
the pair interval, and matching continues in the postfix of that match, so
intervals are measured from the previously matched item and within-item
alphabet advancement is honoured by the residual construction. -/
def matchesFrom (itemize : ℤ → ℤ) : List Item → List Pair → Bool
  | _, [] => true
  | p, pr :: rest =>
    (genPostfixesAll itemize p pr).any (fun q => matchesFrom itemize q rest)

/-- The chained matching relation on an input sequence: some anchor item
contains the first pair's element (its interval is ignored, as for level-1
projection), and the remaining pairs match the anchor's postfix in the
chained sense. -/
def matchesSeq (itemize : ℤ → ℤ) (s : List Item) : List Pair → Bool
  | [] => true
  | first :: rest =>
    (generate_postfixes itemize s first true).any
      (fun p => matchesFrom itemize p rest)

/-- A postfix is reachable from a starting postfix along a pair chain by
non-deterministic projection choices. -/
def ReachFrom (itemize : ℤ → ℤ) : List Item → List Pair → List Item → Prop
  | p0, [], p => p = p0
  | p0, pr :: rest, p =>
    ∃ p1 ∈ genPostfixesAll itemize p0 pr, ReachFrom itemize p1 rest p
termination_by _ prs _ => prs.length

/-- A postfix is reachable from an input sequence along a non-empty prefix:
some level-1 anchor postfix followed by projection choices. -/
def Reach (itemize : ℤ → ℤ) (s : List Item) (pre : List Pair)
    (p : List Item) : Prop :=
  match pre with
  | [] => False
  | first :: rest =>
    ∃ p0 ∈ generate_postfixes itemize s first true, ReachFrom itemize p0 rest p

/-- Correspondence between input sequences and the groups of a projected
database: each group comes from a distinct input sequence (in order), and
every postfix of the group is reachable from that sequence along the current
prefix. -/
inductive Corr (itemize : ℤ → ℤ) (pre : List Pair) :
    List (List Item) → List (List (List Item)) → Prop
  | nil : Corr itemize pre [] []
  | skip {s ss gs} : Corr itemize pre ss gs → Corr itemize pre (s :: ss) gs
  | keep {s ss g gs} : (∀ p ∈ g, Reach itemize s pre p) →
      Corr itemize pre ss gs → Corr itemize pre (s :: ss) (g :: gs)

/-- Specification-side definition (section 8, pattern existence, as worded):
realize the remaining pairs from a fixed anchor, measuring itemize(t -
anchor) against the running sum of pair intervals; an element may be taken
from the same item as the previous pair only when it is strictly greater in
the alphabet, and from a later item with no alphabet constraint.  The fuel
argument only bounds the recursion; every step consumes either a pair or an
item, so the caller's fuel of pairs + items + 2 is never exhausted. -/
def anchorFrom (itemize : ℤ → ℤ) (anchorT : ℤ) :
    ℕ → ℤ → List Item → Option Elem → List Pair → Bool
  | 0, _, _, _, _ => false
  | _ + 1, _, _, _, [] => true
  | _ + 1, _, [], _, _ :: _ => false
  | fuel + 1, acc, it :: rest, low, pr :: ps =>
    (decide (itemize (it.interval - anchorT) = acc + pr.interval) &&
      decide (pr.element ∈ it.elements) &&
      (match low with
       | none => true
       | some l => decide (l < pr.element)) &&
      anchorFrom itemize anchorT fuel (acc + pr.interval) (it :: rest)
        (some pr.element) ps) ||
    anchorFrom itemize anchorT fuel acc rest none (pr :: ps)

/-- Specification-side definition (section 8, pattern existence, as worded):
a sequence matches a pattern when some anchor item contains the first pair's
element and every subsequent pair (q, e) is realized by a later item (t, E)
with e in E and itemize(t - anchor) equal to the sum of the prior pair
intervals plus q, tracking within-item alphabet advancement. -/
def anchorMatchesSeq (itemize : ℤ → ℤ) : List Item → List Pair → Bool
  | _, [] => true
  | [], _ :: _ => false
  | it :: rest, pr :: ps =>
    (decide (pr.element ∈ it.elements) &&
      anchorFrom itemize it.interval (ps.length + rest.length + 2) 0 (it :: rest)
        (some pr.element) ps) ||
    anchorMatchesSeq itemize rest (pr :: ps)

theorem matchesFrom_append {itemize : ℤ → ℤ} :
    ∀ {qs : List Pair} {p0 p : List Item} {qs2 : List Pair},
      ReachFrom itemize p0 qs p → matchesFrom itemize p qs2 = true →
      matchesFrom itemize p0 (qs ++ qs2) = true := by
  intro qs
  induction qs with
  | nil =>
    intro p0 p qs2 hr hm
    unfold ReachFrom at hr
    subst hr
    simpa using hm
  | cons pr rest ih =>
    intro p0 p qs2 hr hm
    unfold ReachFrom at hr
    rcases hr with ⟨p1, hp1, hr1⟩
    rw [List.cons_append, matchesFrom]
    rw [List.any_eq_true]
    exact ⟨p1, hp1, ih hr1 hm⟩

theorem matchesSeq_of_reach {itemize : ℤ → ℤ} {s : List Item}
    {pre : List Pair} {p : List Item} {qs : List Pair}
    (hr : Reach itemize s pre p) (hm : matchesFrom itemize p qs = true) :
    matchesSeq itemize s (pre ++ qs) = true := by
  cases pre with
  | nil => exact absurd hr (by simp [Reach])
  | cons first rest =>
    unfold Reach at hr
    rcases hr with ⟨p0, hp0, hr0⟩
    rw [List.cons_append, matchesSeq, List.any_eq_true]
    exact ⟨p0, hp0, matchesFrom_append hr0 hm⟩

theorem mem_genPostfixesAll_of_first {itemize : ℤ → ℤ} {pr : Pair} :
    ∀ {s p : List Item}, p ∈ generate_postfixes itemize s pr false →
      p ∈ genPostfixesAll itemize s pr := by
  intro s
  induction s with
  | nil => intro p hp; simpa [generate_postfixes] using hp
  | cons it rest ih =>
    intro p hp
    rw [generate_postfixes] at hp
    rw [genPostfixesAll]
    split at hp
    · rename_i hcond
      have hcond' : pr.element ∈ it.elements ∧ itemize it.interval = pr.interval := by
        rcases hcond.2 with h | h
        · cases h
        · exact ⟨hcond.1, h⟩
      rw [if_pos hcond']
      rcases List.mem_cons.mp hp with h | h
      · subst h
        exact List.mem_append_left _ (by simp)
      · simp at h
    · exact List.mem_append_right _ (ih hp)

theorem reachFrom_snoc {itemize : ℤ → ℤ} {pr : Pair} :
    ∀ {qs : List Pair} {p0 p p1 : List Item},
      ReachFrom itemize p0 qs p → p1 ∈ genPostfixesAll itemize p pr →
      ReachFrom itemize p0 (qs ++ [pr]) p1 := by
  intro qs
  induction qs with
  | nil =>
    intro p0 p p1 hr hp1
    unfold ReachFrom at hr
    subst hr
    rw [List.nil_append]
    unfold ReachFrom
    exact ⟨p1, hp1, by rw [ReachFrom]⟩
  | cons q rest ih =>
    intro p0 p p1 hr hp1
    unfold ReachFrom at hr
    rcases hr with ⟨p2, hp2, hr2⟩
    rw [List.cons_append]
    unfold ReachFrom
    exact ⟨p2, hp2, ih hr2 hp1⟩

theorem reach_snoc {itemize : ℤ → ℤ} {s : List Item} {pre : List Pair}
    {pr : Pair} {p p1 : List Item} (hr : Reach itemize s pre p)
    (hp1 : p1 ∈ genPostfixesAll itemize p pr) :
    Reach itemize s (pre ++ [pr]) p1 := by
  cases pre with
  | nil => exact absurd hr (by simp [Reach])
  | cons first rest =>
    unfold Reach at hr ⊢
    rcases hr with ⟨p0, hp0, hr0⟩
    rw [List.cons_append]
    exact ⟨p0, hp0, reachFrom_snoc hr0 hp1⟩

theorem corr_project {g : Gspmi} {pre : List Pair} {pr : Pair} :
    ∀ {ss : List (List Item)} {gs : List (List (List Item))},
      Corr g.itemize pre ss gs →
      Corr g.itemize (pre ++ [pr]) ss (project g.itemize gs pr) := by
  intro ss gs hc
  induction hc with
  | nil => exact Corr.nil
  | skip h ih => exact Corr.skip ih
  | keep hreach hcorr ih =>
    rename_i s ss' grp gs'
    unfold project
    rw [List.filterMap_cons]
    cases hk : keepNonempty (grp.filterMap (firstPostfix g.itemize pr)) with
    | none => exact Corr.skip ih
    | some grp' =>
      refine Corr.keep ?_ ih
      intro p' hp'
      obtain ⟨heq, _⟩ := keepNonempty_eq_some hk
      subst heq
      rcases List.mem_filterMap.mp hp' with ⟨p, hpmem, hfp⟩
      have hgen := (firstPostfix_eq_some hfp).1
      exact reach_snoc (hreach p hpmem) (mem_genPostfixesAll_of_first hgen)

theorem mem_postfixPairs_witness {g : Gspmi} {pr : Pair} :
    ∀ {p : List Item} {prev : ℤ}, pr ∈ postfixPairs g prev p →
      ∃ it ∈ p, pr.element ∈ it.elements ∧ g.itemize it.interval = pr.interval := by
  intro p
  induction p with
  | nil => intro prev hp; simp [postfixPairs] at hp
  | cons it rest ih =>
    intro prev hp
    rw [postfixPairs] at hp
    rcases List.mem_append.mp hp with h | h
    · split at h
      · rcases List.mem_map.mp h with ⟨e, he, heq⟩
        refine ⟨it, List.mem_cons_self _ _, ?_, ?_⟩
        · rw [← heq]
          exact mem_sortedElems.mp he
        · rw [← heq]
      · simp at h
    · rcases ih h with ⟨j, hj, h1, h2⟩
      exact ⟨j, List.mem_cons_of_mem _ hj, h1, h2⟩

theorem genPostfixesAll_ne_nil {itemize : ℤ → ℤ} {pr : Pair} :
    ∀ {p : List Item}, (∃ it ∈ p, pr.element ∈ it.elements ∧
      itemize it.interval = pr.interval) →
      genPostfixesAll itemize p pr ≠ [] := by
  intro p
  induction p with
  | nil => intro h; simp at h
  | cons it rest ih =>
    intro h
    rw [genPostfixesAll]
    rcases h with ⟨j, hj, h1, h2⟩
    rcases List.mem_cons.mp hj with hj1 | hj1
    · subst hj1
      rw [if_pos ⟨h1, h2⟩]
      simp
    · intro hemp
      rcases List.append_eq_nil.mp hemp with ⟨_, h4⟩
      exact ih ⟨j, hj1, h1, h2⟩ h4

theorem matchesFrom_single {g : Gspmi} {p : List Item} {pr : Pair} {prev : ℤ}
    (hp : pr ∈ postfixPairs g prev p) :
    matchesFrom g.itemize p [pr] = true := by
  rw [matchesFrom, List.any_eq_true]
  have hne := genPostfixesAll_ne_nil (mem_postfixPairs_witness hp)
  rcases hq : genPostfixesAll g.itemize p pr with _ | ⟨q, qs⟩
  · exact absurd hq hne
  · exact ⟨q, List.mem_cons_self _ _, by rw [matchesFrom]⟩

theorem mem_groupPairs_witness {g : Gspmi} {grp : List (List Item)} {pr : Pair}
    (h : pr ∈ groupPairs g grp) :
    ∃ p ∈ grp, pr ∈ postfixPairs g 0 p := by
  unfold groupPairs at h
  rw [List.mem_dedup] at h
  exact List.mem_flatMap.mp h

theorem corr_count {g : Gspmi} {pre : List Pair} {pr : Pair} :
    ∀ {ss : List (List Item)} {gs : List (List (List Item))},
      Corr g.itemize pre ss gs →
      gs.countP (fun grp => decide (pr ∈ groupPairs g grp)) ≤
        ss.countP (fun s => matchesSeq g.itemize s (pre ++ [pr])) := by
  intro ss gs hc
  induction hc with
  | nil => simp
  | skip h ih =>
    rw [List.countP_cons]
    omega
  | keep hreach hcorr ih =>
    rename_i s ss' grp gs'
    rw [List.countP_cons, List.countP_cons]
    by_cases hmem : pr ∈ groupPairs g grp
    · have hmatch : matchesSeq g.itemize s (pre ++ [pr]) = true := by
        rcases mem_groupPairs_witness hmem with ⟨p, hpmem, hpp⟩
        exact matchesSeq_of_reach (hreach p hpmem) (matchesFrom_single hpp)
      simp [hmem, hmatch]
      omega
    · simp [hmem]
      omega

theorem corr_level1 {itemize : ℤ → ℤ} {pr0 : Pair} :
    ∀ ss : List (List Item),
      Corr itemize [pr0] ss (project_level1 itemize ss pr0) := by
  intro ss
  induction ss with
  | nil => exact Corr.nil
  | cons s rest ih =>
    unfold project_level1
    rw [List.filterMap_cons]
    cases hk : keepNonempty (generate_postfixes itemize s pr0 true) with
    | none => exact Corr.skip ih
    | some ps =>
      refine Corr.keep ?_ ih
      intro p hp
      obtain ⟨heq, _⟩ := keepNonempty_eq_some hk
      subst heq
      unfold Reach
      exact ⟨p, hp, by rw [ReachFrom]⟩

theorem counterItems_nil (g : Gspmi) : counterItems g [] = [] := rfl

theorem mineLoop_nil (g : Gspmi) (pdb : List (List (List Item)))
    (pre : List Pair) : Gspmi.mineLoop g pdb pre [] = [] := by
  rw [Gspmi.mineLoop]

theorem mineLoop_cons (g : Gspmi) (pdb : List (List (List Item)))
    (pre : List Pair) (pair : Pair) (support : ℕ) (rest : List (Pair × ℕ)) :
    Gspmi.mineLoop g pdb pre ((pair, support) :: rest) =
      (if g.min_support ≤ (support : ℤ) ∧
          wholeOK g ((pre.map Pair.interval).sum + pair.interval) = true then
        Gspmi.mine_subpatterns g (project g.itemize pdb pair) (pre ++ [pair]) ++
        (if g.itemize g.min_whole_interval ≤
            (pre.map Pair.interval).sum + pair.interval then
          [⟨pre ++ [pair], support, (pre.map Pair.interval).sum + pair.interval⟩]
        else [])
      else []) ++ Gspmi.mineLoop g pdb pre rest := by
  rw [Gspmi.mineLoop]
  congr 1
  split
  · congr 1
    rcases hproj : project g.itemize pdb pair with _ | ⟨c, cs⟩
    · rw [Gspmi.mine_subpatterns, counterItems_nil, mineLoop_nil]
    · rw [Gspmi.mine_subpatterns]
  · rfl

theorem mineSrcLoop_nil (g : Gspmi) (pdb : List (List (List Item)))
    (pre : List Pair) : mineSrcLoop g pdb pre [] = [] := by
  rw [mineSrcLoop]

theorem mineSrcLoop_cons (g : Gspmi) (pdb : List (List (List Item)))
    (pre : List Pair) (pair : Pair) (support : ℕ) (rest : List (Pair × ℕ)) :
    mineSrcLoop g pdb pre ((pair, support) :: rest) =
      (if g.min_support ≤ (support : ℤ) ∧
          wholeOK g ((pre.map Pair.interval).sum + pair.interval) = true then
        mine_subpatterns g (project g.itemize pdb (pre.getLastD ⟨0, 0⟩)) pre ++
        (if g.itemize g.min_whole_interval ≤
            (pre.map Pair.interval).sum + pair.interval then
          [⟨pre ++ [pair], support, (pre.map Pair.interval).sum + pair.interval⟩]
        else [])
      else []) ++ mineSrcLoop g pdb pre rest := by
  rw [mineSrcLoop]
  congr 1
  split
  · congr 1
    rcases hproj : project g.itemize pdb (pre.getLastD ⟨0, 0⟩) with _ | ⟨c, cs⟩
    · rw [mine_subpatterns, counterItems_nil, mineSrcLoop_nil]
    · rw [mine_subpatterns]
  · rfl

theorem counterItems_mem {g : Gspmi} {pdb : List (List (List Item))}
    {pr : Pair} {n : ℕ} (h : (pr, n) ∈ counterItems g pdb) :
    n = pdb.countP (fun grp => decide (pr ∈ groupPairs g grp)) := by
  unfold counterItems at h
  rcases List.mem_map.mp h with ⟨p, hp, heq⟩
  injection heq with h1 h2
  subst h1
  exact h2.symm

/-- Support bound and whole-interval properties of every pattern emitted by
the class-copy recursive miner. -/
theorem mineLoop_emitted (g : Gspmi) :
    ∀ (pdb : List (List (List Item))) (pre : List Pair)
      (cands : List (Pair × ℕ)), ∀ pat ∈ Gspmi.mineLoop g pdb pre cands,
      g.min_support ≤ (pat.support : ℤ) ∧
      g.itemize g.min_whole_interval ≤ pat.whole_interval ∧
      (∀ m, g.max_whole_interval = some m → pat.whole_interval ≤ g.itemize m) ∧
      pre.length + 1 ≤ pat.sequence.length := by
  intro pdb pre cands
  induction pdb, pre, cands using Gspmi.mineLoop.induct g with
  | case1 pdb pre =>
    intro pat hpat
    rw [mineLoop_nil] at hpat
    simp at hpat
  | case2 pdb pre pair support rest ih1 ih2 =>
    intro pat hpat
    rw [mineLoop_cons] at hpat
    rcases List.mem_append.mp hpat with h | h
    · split at h
      · rename_i hgate
        rcases List.mem_append.mp h with h1 | h1
        · rcases hproj : project g.itemize pdb pair with _ | ⟨c, cs⟩
          · rw [hproj, Gspmi.mine_subpatterns, counterItems_nil,
              mineLoop_nil] at h1
            simp at h1
          · rw [hproj, Gspmi.mine_subpatterns] at h1
            have := ih1 c cs hproj pat h1
            refine ⟨this.1, this.2.1, this.2.2.1, ?_⟩
            have hlen := this.2.2.2
            rw [List.length_append] at hlen
            simp only [List.length_cons] at hlen ⊢
            omega
        · split at h1
          · rename_i hemit
            rcases List.mem_singleton.mp h1 with rfl
            refine ⟨hgate.1, hemit, ?_, ?_⟩
            · intro m hm
              have hw := hgate.2
              unfold wholeOK at hw
              rw [hm] at hw
              simpa using hw
            · simp
          · simp at h1
      · simp at h
    · exact ih2 pat h

/-- Support bound and whole-interval properties of every pattern emitted by
the free-function-copy recursive miner. -/
theorem mineSrcLoop_emitted (g : Gspmi) :
    ∀ (pdb : List (List (List Item))) (pre : List Pair)
      (cands : List (Pair × ℕ)), ∀ pat ∈ mineSrcLoop g pdb pre cands,
      g.min_support ≤ (pat.support : ℤ) ∧
      g.itemize g.min_whole_interval ≤ pat.whole_interval ∧
      (∀ m, g.max_whole_interval = some m → pat.whole_interval ≤ g.itemize m) ∧
      pre.length + 1 ≤ pat.sequence.length := by
  intro pdb pre cands
  induction pdb, pre, cands using mineSrcLoop.induct g with
  | case1 pdb pre =>
    intro pat hpat
    rw [mineSrcLoop_nil] at hpat
    simp at hpat
  | case2 pdb pre pair support rest ih1 ih2 =>
    intro pat hpat
    rw [mineSrcLoop_cons] at hpat
    rcases List.mem_append.mp hpat with h | h
    · split at h
      · rename_i hgate
        rcases List.mem_append.mp h with h1 | h1
        · rcases hproj : project g.itemize pdb (pre.getLastD ⟨0, 0⟩) with _ | ⟨c, cs⟩
          · rw [hproj, mine_subpatterns, counterItems_nil,
              mineSrcLoop_nil] at h1
            simp at h1
          · rw [hproj, mine_subpatterns] at h1
            exact ih1 c cs hproj pat h1
        · split at h1
          · rename_i hemit
            rcases List.mem_singleton.mp h1 with rfl
            refine ⟨hgate.1, hemit, ?_, ?_⟩
            · intro m hm
              have hw := hgate.2
              unfold wholeOK at hw
              rw [hm] at hw
              simpa using hw
            · simp
          · simp at h1
      · simp at h
    · exact ih2 pat h

theorem mineLoop_support_matches (g : Gspmi) (ss : List (List Item)) :
    ∀ (pdb : List (List (List Item))) (pre : List Pair)
      (cands : List (Pair × ℕ)),
      Corr g.itemize pre ss pdb →
      (∀ x ∈ cands, x ∈ counterItems g pdb) →
      ∀ pat ∈ Gspmi.mineLoop g pdb pre cands,
        pat.support ≤ ss.countP (fun s => matchesSeq g.itemize s pat.sequence) := by
  intro pdb pre cands
  induction pdb, pre, cands using Gspmi.mineLoop.induct g with
  | case1 pdb pre =>
    intro hcorr hsub pat hpat
    rw [mineLoop_nil] at hpat
    simp at hpat
  | case2 pdb pre pair support rest ih1 ih2 =>
    intro hcorr hsub pat hpat
    rw [mineLoop_cons] at hpat
    rcases List.mem_append.mp hpat with h | h
    · split at h
      · rename_i hgate
        rcases List.mem_append.mp h with h1 | h1
        · rcases hproj : project g.itemize pdb pair with _ | ⟨c, cs⟩
          · rw [hproj, Gspmi.mine_subpatterns, counterItems_nil,
              mineLoop_nil] at h1
            simp at h1
          · rw [hproj, Gspmi.mine_subpatterns] at h1
            have hcorr' : Corr g.itemize (pre ++ [pair]) ss (c :: cs) :=
              hproj ▸ corr_project hcorr
            exact ih1 c cs hproj hcorr' (fun x hx => hx) pat h1
        · split at h1
          · rcases List.mem_singleton.mp h1 with rfl
            have hc := counterItems_mem (hsub _ (List.mem_cons_self _ _))
            simp only []
            rw [hc]
            exact corr_count hcorr
          · simp at h1
      · simp at h
    · exact ih2 hcorr (fun x hx => hsub x (List.mem_cons_of_mem _ hx)) pat h

theorem generate_level1_ne_nil {itemize : ℤ → ℤ} {pr : Pair} :
    ∀ {s : List Item},
      generate_postfixes itemize s pr true ≠ [] ↔
        ∃ it ∈ s, pr.element ∈ it.elements := by
  intro s
  induction s with
  | nil => simp [generate_postfixes]
  | cons it rest ih =>
    rw [generate_postfixes]
    by_cases he : pr.element ∈ it.elements
    · rw [if_pos ⟨he, Or.inl rfl⟩]
      simp [he]
    · rw [if_neg (fun hc => he hc.1), ih]
      constructor
      · rintro ⟨j, hj, hm⟩
        exact ⟨j, List.mem_cons_of_mem _ hj, hm⟩
      · rintro ⟨j, hj, hm⟩
        rcases List.mem_cons.mp hj with h1 | h1
        · exact absurd (h1 ▸ hm) he
        · exact ⟨j, h1, hm⟩

theorem mem_seqElements {s : List Item} {e : Elem} :
    e ∈ seqElements s ↔ ∃ it ∈ s, e ∈ it.elements := by
  unfold seqElements
  rw [List.mem_dedup, List.mem_flatMap]
  constructor
  · rintro ⟨it, hit, hm⟩
    exact ⟨it, hit, mem_sortedElems.mp hm⟩
  · rintro ⟨it, hit, hm⟩
    exact ⟨it, hit, mem_sortedElems.mpr hm⟩

theorem matchesSeq_single {itemize : ℤ → ℤ} {s : List Item} {pr : Pair} :
    matchesSeq itemize s [pr] = true ↔ pr.element ∈ seqElements s := by
  rw [matchesSeq, List.any_eq_true, mem_seqElements]
  constructor
  · rintro ⟨p, hp, _⟩
    have hne : generate_postfixes itemize s pr true ≠ [] := by
      intro hc
      rw [hc] at hp
      simp at hp
    exact generate_level1_ne_nil.mp hne
  · intro h
    have hne : generate_postfixes itemize s pr true ≠ [] :=
      generate_level1_ne_nil.mpr h
    rcases hq : generate_postfixes itemize s pr true with _ | ⟨p, ps⟩
    · exact absurd hq hne
    · exact ⟨p, List.mem_cons_self _ _, by rw [matchesFrom]⟩

theorem elementCounter_mem {ss : List (List Item)} {e : Elem} {n : ℕ}
    (h : (e, n) ∈ elementCounter ss) :
    n = ss.countP (fun s => decide (e ∈ seqElements s)) := by
  unfold elementCounter at h
  rcases List.mem_map.mp h with ⟨x, hx, heq⟩
  injection heq with h1 h2
  subst h1
  exact h2.symm

/-- C1 (amended): for every pattern returned by the serial class-copy miner
with support s, at least s of the input sequences match the pattern under
the chained matching relation (each pair realized in the postfix of the
previous match, with within-item alphabet advancement); in particular the
support never exceeds the number of input sequences, so each source
sequence is counted at most once per pattern. -/
theorem c1_pattern_support_at_least (g : Gspmi) (sequences : List (List Item)) :
    ∀ pat ∈ Gspmi.mine_patterns g sequences,
      pat.support ≤
        sequences.countP (fun s => matchesSeq g.itemize s pat.sequence) ∧
      pat.support ≤ sequences.length := by
  intro pat hpat
  unfold Gspmi.mine_patterns at hpat
  rcases List.mem_flatMap.mp hpat with ⟨es, hes, hbody⟩
  obtain ⟨e, n⟩ := es
  unfold Gspmi.mine_subpatterns_level1 at hbody
  split at hbody
  · rcases List.mem_append.mp hbody with h | h
    · split at h
      · rcases List.mem_singleton.mp h with rfl
        have hn := elementCounter_mem hes
        have hcount : sequences.countP (fun s => decide (e ∈ seqElements s)) =
            sequences.countP
              (fun s => matchesSeq g.itemize s [(⟨0, e⟩ : Pair)]) := by
          apply List.countP_congr
          intro s _
          cases hm : matchesSeq g.itemize s [(⟨0, e⟩ : Pair)] with
          | true =>
            simpa using (@matchesSeq_single g.itemize s ⟨0, e⟩).mp hm
          | false =>
            have : ¬((⟨0, e⟩ : Pair).element ∈ seqElements s) := by
              intro hc
              rw [(@matchesSeq_single g.itemize s ⟨0, e⟩).mpr hc] at hm
              cases hm
            simpa using this
        constructor
        · simp only []
          rw [hn, hcount]
        · simp only [hn]
          exact List.countP_le_length _
      · simp at h
    · rw [Gspmi.mine_subpatterns] at h
      have hle := mineLoop_support_matches g sequences _ _ _
        (corr_level1 sequences) (fun x hx => hx) pat h
      exact ⟨hle, le_trans hle (List.countP_le_length _)⟩
  · simp at hbody

theorem postfixPairs_length_le (g : Gspmi) :
    ∀ (p : List Item) (prev : ℤ), (postfixPairs g prev p).length ≤ postfixW p := by
  intro p
  induction p with
  | nil => intro prev; simp [postfixPairs, postfixW]
  | cons it rest ih =>
    intro prev
    rw [postfixPairs]
    rw [List.length_append]
    have h1 : (if gapOK g (it.interval - prev) then
        (sortedElems it.elements).map (fun e => (⟨g.itemize it.interval, e⟩ : Pair))
      else []).length ≤ it.elements.card := by
      split
      · rw [List.length_map, sortedElems_eq, Finset.length_sort]
      · simp
    have h2 := ih it.interval
    simp only [postfixW, List.map_cons, List.sum_cons]
    simp only [postfixW] at h2
    omega

theorem groupPairs_length_le (g : Gspmi) (grp : List (List Item)) :
    (groupPairs g grp).length ≤ groupW grp := by
  unfold groupPairs
  calc ((grp.flatMap (postfixPairs g 0)).dedup).length
      ≤ (grp.flatMap (postfixPairs g 0)).length :=
        (List.dedup_sublist _).length_le
    _ = (grp.map (List.length ∘ postfixPairs g 0)).sum := List.length_flatMap _ _
    _ ≤ (grp.map postfixW).sum := by
        apply List.sum_le_sum
        intro p hp
        simp only [Function.comp]
        exact postfixPairs_length_le g p 0
    _ = groupW grp := rfl

theorem counterItems_length_le (g : Gspmi) (pdb : List (List (List Item))) :
    (counterItems g pdb).length ≤ pdbW pdb := by
  unfold counterItems
  rw [List.length_map]
  calc ((pdb.flatMap (groupPairs g)).dedup).length
      ≤ (pdb.flatMap (groupPairs g)).length := (List.dedup_sublist _).length_le
    _ = (pdb.map (List.length ∘ groupPairs g)).sum := List.length_flatMap _ _
    _ ≤ (pdb.map groupW).sum := by
        apply List.sum_le_sum
        intro grp hgrp
        simp only [Function.comp]
        exact groupPairs_length_le g grp
    _ = pdbW pdb := rfl

/-- Fuel-driven executable twin of the class-copy candidate loop (structural
recursion on the fuel, so that concrete runs reduce inside the kernel).  It
agrees with Gspmi.mineLoop whenever the fuel exceeds the quadratic recursion
bound, see mineLoopFuel_eq. -/
def mineLoopFuel (g : Gspmi) :
    ℕ → List (List (List Item)) → List Pair → List (Pair × ℕ) → List Pattern
  | 0, _, _, _ => []
  | _ + 1, _, _, [] => []
  | fuel + 1, pdb, pre, (pair, support) :: rest =>
    (if g.min_support ≤ (support : ℤ) ∧
        wholeOK g ((pre.map Pair.interval).sum + pair.interval) = true then
      mineLoopFuel g fuel (project g.itemize pdb pair) (pre ++ [pair])
        (counterItems g (project g.itemize pdb pair)) ++
      (if g.itemize g.min_whole_interval ≤
          (pre.map Pair.interval).sum + pair.interval then
        [⟨pre ++ [pair], support, (pre.map Pair.interval).sum + pair.interval⟩]
      else [])
    else []) ++ mineLoopFuel g fuel pdb pre rest

theorem mineLoopFuel_eq (g : Gspmi) :
    ∀ (fuel : ℕ) (pdb : List (List (List Item))) (pre : List Pair)
      (cands : List (Pair × ℕ)),
      (pdbW pdb + 1) * (pdbW pdb + 1) + cands.length < fuel →
      mineLoopFuel g fuel pdb pre cands = Gspmi.mineLoop g pdb pre cands := by
  intro fuel
  induction fuel with
  | zero => intro pdb pre cands h; omega
  | succ fuel ih =>
    intro pdb pre cands h
    match cands with
    | [] => rw [mineLoopFuel, mineLoop_nil]
    | (pair, support) :: rest =>
      rw [mineLoopFuel, mineLoop_cons]
      congr 1
      · split
        · congr 1
          rw [Gspmi.mine_subpatterns]
          apply ih
          rcases hproj : project g.itemize pdb pair with _ | ⟨c, cs⟩
          · simp only [counterItems_nil, List.length_nil, pdbW, List.map_nil,
              List.sum_nil]
            simp only [List.length_cons] at h
            nlinarith
          · rw [← hproj]
            have h1 : pdbW (project g.itemize pdb pair) < pdbW pdb :=
              pdbW_project_lt (by rw [hproj]; simp)
            have h2 := counterItems_length_le g (project g.itemize pdb pair)
            have h3 : (pdbW (project g.itemize pdb pair) + 1) *
                (pdbW (project g.itemize pdb pair) + 1) ≤ pdbW pdb * pdbW pdb :=
              Nat.mul_le_mul (by omega) (by omega)
            simp only [List.length_cons] at h
            nlinarith
        · rfl
      · apply ih
        simp only [List.length_cons] at h
        omega

/-- Fuel-driven executable twin of the free-function-copy candidate loop. -/
def mineSrcLoopFuel (g : Gspmi) :
    ℕ → List (List (List Item)) → List Pair → List (Pair × ℕ) → List Pattern
  | 0, _, _, _ => []
  | _ + 1, _, _, [] => []
  | fuel + 1, pdb, pre, (pair, support) :: rest =>
    (if g.min_support ≤ (support : ℤ) ∧
        wholeOK g ((pre.map Pair.interval).sum + pair.interval) = true then
      mineSrcLoopFuel g fuel (project g.itemize pdb (pre.getLastD ⟨0, 0⟩)) pre
        (counterItems g (project g.itemize pdb (pre.getLastD ⟨0, 0⟩))) ++
      (if g.itemize g.min_whole_interval ≤
          (pre.map Pair.interval).sum + pair.interval then
        [⟨pre ++ [pair], support, (pre.map Pair.interval).sum + pair.interval⟩]
      else [])
    else []) ++ mineSrcLoopFuel g fuel pdb pre rest

theorem mineSrcLoopFuel_eq (g : Gspmi) :
    ∀ (fuel : ℕ) (pdb : List (List (List Item))) (pre : List Pair)
      (cands : List (Pair × ℕ)),
      (pdbW pdb + 1) * (pdbW pdb + 1) + cands.length < fuel →
      mineSrcLoopFuel g fuel pdb pre cands = mineSrcLoop g pdb pre cands := by
  intro fuel
  induction fuel with
  | zero => intro pdb pre cands h; omega
  | succ fuel ih =>
    intro pdb pre cands h
    match cands with
    | [] => rw [mineSrcLoopFuel, mineSrcLoop_nil]
    | (pair, support) :: rest =>
      rw [mineSrcLoopFuel, mineSrcLoop_cons]
      congr 1
      · split
        · congr 1
          rw [mine_subpatterns]
          apply ih
          rcases hproj : project g.itemize pdb (pre.getLastD ⟨0, 0⟩) with _ | ⟨c, cs⟩
          · simp only [counterItems_nil, List.length_nil, pdbW, List.map_nil,
              List.sum_nil]
            simp only [List.length_cons] at h
            nlinarith
          · rw [← hproj]
            have h1 : pdbW (project g.itemize pdb (pre.getLastD ⟨0, 0⟩)) < pdbW pdb :=
              pdbW_project_lt (by rw [hproj]; simp)
            have h2 := counterItems_length_le g
              (project g.itemize pdb (pre.getLastD ⟨0, 0⟩))
            have h3 : (pdbW (project g.itemize pdb (pre.getLastD ⟨0, 0⟩)) + 1) *
                (pdbW (project g.itemize pdb (pre.getLastD ⟨0, 0⟩)) + 1) ≤
                pdbW pdb * pdbW pdb :=
              Nat.mul_le_mul (by omega) (by omega)
            simp only [List.length_cons] at h
            nlinarith
        · rfl
      · apply ih
        simp only [List.length_cons] at h
        omega

/-- Executable form of Gspmi.mine_subpatterns. -/
def mine_subpatternsE (g : Gspmi) (projected_db : List (List (List Item)))
    (pre : List Pair) : List Pattern :=
  mineLoopFuel g
    ((pdbW projected_db + 1) * (pdbW projected_db + 1) +
      (counterItems g projected_db).length + 1)
    projected_db pre (counterItems g projected_db)

theorem mine_subpatternsE_eq (g : Gspmi) (projected_db : List (List (List Item)))
    (pre : List Pair) :
    mine_subpatternsE g projected_db pre =
      Gspmi.mine_subpatterns g projected_db pre := by
  rw [mine_subpatternsE, Gspmi.mine_subpatterns]
  exact mineLoopFuel_eq g _ _ _ _ (by omega)

/-- Executable form of mine_subpatterns (free-function copy). -/
def mine_subpatternsSrcE (g : Gspmi) (projected_db : List (List (List Item)))
    (pre : List Pair) : List Pattern :=
  mineSrcLoopFuel g
    ((pdbW projected_db + 1) * (pdbW projected_db + 1) +
      (counterItems g projected_db).length + 1)
    projected_db pre (counterItems g projected_db)

theorem mine_subpatternsSrcE_eq (g : Gspmi)
    (projected_db : List (List (List Item))) (pre : List Pair) :
    mine_subpatternsSrcE g projected_db pre =
      mine_subpatterns g projected_db pre := by
  rw [mine_subpatternsSrcE, mine_subpatterns]
  exact mineSrcLoopFuel_eq g _ _ _ _ (by omega)

/-- Executable form of Gspmi.mine_patterns (serial mode). -/
def mine_patternsE (g : Gspmi) (sequences : List (List Item)) : List Pattern :=
  (elementCounter sequences).flatMap (fun es =>
    if g.min_support ≤ (es.2 : ℤ) then
      (if g.min_whole_interval ≤ (0 : ℤ) then
        [⟨[⟨0, es.1⟩], es.2, 0⟩] else []) ++
        mine_subpatternsE g (project_level1 g.itemize sequences ⟨0, es.1⟩)
          [⟨0, es.1⟩]
    else [])

theorem mine_patternsE_eq (g : Gspmi) (sequences : List (List Item)) :
    mine_patternsE g sequences = Gspmi.mine_patterns g sequences := by
  unfold mine_patternsE Gspmi.mine_patterns Gspmi.mine_subpatterns_level1
  congr 1
  funext es
  rw [mine_subpatternsE_eq]

/-- Executable form of mineCore. -/
def mineCoreE (g : Gspmi) (sequences : List (List Item)) : List Pattern :=
  (elementCounter sequences).flatMap (fun es =>
    if g.min_support ≤ (es.2 : ℤ) then
      (if g.min_whole_interval ≤ (0 : ℤ) then
        [⟨[⟨0, es.1⟩], es.2, 0⟩] else []) ++
        (match project_level1 g.itemize sequences ⟨0, es.1⟩ with
         | [] => []
         | c :: cs => mine_subpatternsSrcE g (c :: cs) [⟨0, es.1⟩])
    else [])

theorem mineCoreE_eq (g : Gspmi) (sequences : List (List Item)) :
    mineCoreE g sequences = mineCore g sequences := by
  unfold mineCoreE mineCore
  congr 1
  funext es
  split
  · congr 1
    rcases project_level1 g.itemize sequences ⟨0, es.1⟩ with _ | ⟨c, cs⟩
    · rfl
    · show mine_subpatternsSrcE g (c :: cs) _ = mine_subpatterns g (c :: cs) _
      rw [mine_subpatternsSrcE_eq]
  · rfl

/-- Scenario sequence S1 of the specification (a=0, b=1, c=2, d=3, e=4,
f=5). -/
def s1 : List Item := [⟨0, {0}⟩, ⟨86400, {0, 1, 2}⟩, ⟨259200, {0, 2}⟩]

/-- Scenario sequence S2 of the specification. -/
def s2 : List Item := [⟨0, {0, 3}⟩, ⟨259200, {2}⟩]

/-- Scenario sequence S3 of the specification. -/
def s3 : List Item := [⟨0, {0, 4, 5}⟩, ⟨172800, {0, 1}⟩]

/-- The configuration of scenario 1: min_support 2, max_interval 172800. -/
def g8 : Gspmi := ⟨itemizeDay, 2, 0, some 172800, 0, none⟩

/-- The list mine actually returns on scenario 1 (order as produced by the
embedding; the claim compares as a set). -/
def c8Result : List Pattern :=
  [⟨[⟨0, 2⟩], 2, 0⟩, ⟨[⟨0, 0⟩], 3, 0⟩, ⟨[⟨0, 0⟩, ⟨2, 0⟩], 2, 2⟩,
   ⟨[⟨0, 0⟩, ⟨0, 1⟩], 2, 0⟩, ⟨[⟨0, 1⟩], 2, 0⟩]

/-- The five expected patterns of scenario 1, written as in the claim. -/
def c8Expected : List Pattern :=
  [⟨[⟨0, 0⟩], 3, 0⟩, ⟨[⟨0, 1⟩], 2, 0⟩, ⟨[⟨0, 2⟩], 2, 0⟩,
   ⟨[⟨0, 0⟩, ⟨0, 1⟩], 2, 0⟩, ⟨[⟨0, 0⟩, ⟨2, 0⟩], 2, 2⟩]

/-- A three-item sequence over elements a=0, b=1, c=2 whose only length-3
pattern under itemize t/10 is a at 0, b at 9, c at 25. -/
def seqU : List Item := [⟨0, {0}⟩, ⟨9, {1}⟩, ⟨25, {2}⟩]

/-- Like seqU but with an extra b at raw time 1, which the greedy deep-level
projection commits to. -/
def seqT : List Item := [⟨0, {0}⟩, ⟨1, {1}⟩, ⟨9, {1}⟩, ⟨25, {2}⟩]

/-- Default-band configuration with itemize t/10 and min_support 1. -/
def gU : Gspmi := ⟨itemizeTen, 1, 0, none, 0, none⟩

/-- The pattern a, b one itemized bucket later, c: [(0,a),(0,b),(1,c)]. -/
def patUBC : Pattern := ⟨[⟨0, 0⟩, ⟨0, 1⟩, ⟨1, 2⟩], 1, 1⟩

/-- C6 counterexample input: the b at raw 25 is out of the gap band from
the previous item at 5, so (2,b) is not counted for this sequence, yet the
sequence survives projection by (2,b). -/
def sG1 : List Item := [⟨0, {0}⟩, ⟨5, {10}⟩, ⟨25, {1}⟩, ⟨26, {2}⟩]

/-- C6 counterexample input: here (2,b) is within the band and is counted. -/
def sG2 : List Item := [⟨0, {0}⟩, ⟨9, {11}⟩, ⟨20, {1}⟩, ⟨21, {2}⟩]

/-- Configuration with a finite max_interval of 15 (itemize t/10). -/
def gC6 : Gspmi := ⟨itemizeTen, 1, 0, some 15, 0, none⟩

/-- The pattern [(0,a),(2,b)], mined with support 1 under gC6. -/
def patP : Pattern := ⟨[⟨0, 0⟩, ⟨2, 1⟩], 1, 2⟩

/-- Its one-pair extension [(0,a),(2,b),(0,c)], mined with support 2. -/
def patQ : Pattern := ⟨[⟨0, 0⟩, ⟨2, 1⟩, ⟨0, 2⟩], 2, 2⟩

/-- A monotone itemize with itemize 0 = 1 > 0 (e.g. counting from one). -/
def gC3 : Gspmi := ⟨fun t => t + 1, 1, 0, none, 0, none⟩

/-- C1 (counterexample): on the database [seqU, seqT] with min_support 1
and itemize t/10, the pattern [(0,a),(0,b),(1,c)] is returned with support
1, yet no input sequence matches it under the claim's anchor-cumulative
relation (itemize(t - anchor) compared with the running sum of pair
intervals), while two sequences match under the chained relation, so the
support is not the exact number of anchor-relation matches. -/
theorem c1_exact_support_counterexample :
    patUBC ∈ Gspmi.mine_patterns gU [seqU, seqT] ∧ patUBC.support = 1 ∧
    [seqU, seqT].countP
      (fun s => anchorMatchesSeq gU.itemize s patUBC.sequence) = 0 ∧
    [seqU, seqT].countP
      (fun s => matchesSeq gU.itemize s patUBC.sequence) = 2 := by
  refine ⟨?_, by decide, by decide, by decide⟩
  rw [← mine_patternsE_eq]
  decide

/-- Witness for the C1 theorem at a concrete input: the single-pair pattern
of element a is returned on [seqU] and at most one sequence matches it. -/
theorem c1_pattern_support_at_least_witness :
    (⟨[(⟨0, 0⟩ : Pair)], 1, 0⟩ : Pattern).support ≤
      [seqU].countP
        (fun s => matchesSeq gU.itemize s
          (⟨[(⟨0, 0⟩ : Pair)], 1, 0⟩ : Pattern).sequence) :=
  (c1_pattern_support_at_least gU [seqU] ⟨[⟨0, 0⟩], 1, 0⟩
    (by rw [← mine_patternsE_eq]; decide)).1

/-- C2: evaluation of both copies at the failing input.  The class copy
(which projects the child database with the candidate pair and recurses
with prefix + [pair]) produces the length-3 pattern [(0,a),(0,b),(1,c)] on
seqU; the free-function copy of gspmi.py, which projects with prefix[-1]
and recurses with the unchanged prefix, omits it. -/
theorem c2_prefix_propagation_divergence :
    patUBC ∈ Gspmi.mine_patterns gU [seqU] ∧ patUBC ∉ mineCore gU [seqU] := by
  constructor
  · rw [← mine_patternsE_eq]
    decide
  · rw [← mineCoreE_eq]
    decide

/-- C3 (counterexample): with the monotone itemize t+1 (so itemize 0 = 1),
min_whole_interval 0 and min_support 1, mining the single-item database
[[(0,{a})]] emits the seed pattern with whole_interval 0, violating the
claimed lower bound itemize(min_whole_interval) <= whole_interval; the
spec's equivalence of the raw seed gate with itemize(min_whole_interval)
<= 0 fails. -/
theorem c3_interval_bound_counterexample :
    (⟨[⟨0, 0⟩], 1, 0⟩ : Pattern) ∈ Gspmi.mine_patterns gC3 [[⟨0, {0}⟩]] ∧
    ¬(gC3.itemize gC3.min_whole_interval ≤
        (⟨[(⟨0, 0⟩ : Pair)], 1, 0⟩ : Pattern).whole_interval) := by
  refine ⟨?_, by decide⟩
  rw [← mine_patternsE_eq]
  decide

/-- C3 (amended): for every returned pattern the whole-interval upper bound
holds (for a finite bound with non-negative itemized value, e.g. any
monotone natural-valued itemize at a non-negative bound), and the itemized
lower bound holds for every multi-pair pattern; single-pair seed patterns
have whole_interval 0 and are gated by the raw condition
min_whole_interval <= 0, which does not imply
itemize(min_whole_interval) <= 0. -/
theorem c3_interval_bound_amended (g : Gspmi) (sequences : List (List Item))
    (hmono : Monotone g.itemize)
    (hmaxW : ∀ m, g.max_whole_interval = some m → 0 ≤ m ∧ 0 ≤ g.itemize 0) :
    ∀ pat ∈ Gspmi.mine_patterns g sequences,
      (∀ m, g.max_whole_interval = some m →
        pat.whole_interval ≤ g.itemize m) ∧
      (2 ≤ pat.sequence.length →
        g.itemize g.min_whole_interval ≤ pat.whole_interval) ∧
      (pat.sequence.length = 1 →
        pat.whole_interval = 0 ∧ g.min_whole_interval ≤ 0) := by
  intro pat hpat
  unfold Gspmi.mine_patterns at hpat
  rcases List.mem_flatMap.mp hpat with ⟨es, hes, hbody⟩
  unfold Gspmi.mine_subpatterns_level1 at hbody
  split at hbody
  · rcases List.mem_append.mp hbody with h | h
    · split at h
      · rename_i hseed
        rcases List.mem_singleton.mp h with rfl
        refine ⟨?_, ?_, fun _ => ⟨rfl, hseed⟩⟩
        · intro m hm
          have h0 : (0 : ℤ) ≤ g.itemize m := by
            have := (hmaxW m hm).2
            have := hmono (hmaxW m hm).1
            omega
          simpa using h0
        · intro hlen
          simp at hlen
      · simp at h
    · rw [Gspmi.mine_subpatterns] at h
      have he := mineLoop_emitted g _ _ _ pat h
      refine ⟨he.2.2.1, fun _ => he.2.1, ?_⟩
      intro hlen
      have := he.2.2.2
      simp only [List.length_cons, List.length_nil] at this
      omega
  · simp at hbody

/-- Witness for the amended C3 theorem at a concrete input, discharging
its hypotheses with the monotone itemize t+1. -/
theorem c3_interval_bound_amended_witness :
    (⟨[(⟨0, 0⟩ : Pair)], 1, 0⟩ : Pattern).whole_interval = 0 ∧
      gC3.min_whole_interval ≤ 0 :=
  (c3_interval_bound_amended gC3 [[⟨0, {0}⟩]]
    (fun a b hab => by show a + 1 ≤ b + 1; omega)
    (fun m hm => by cases hm)
    ⟨[⟨0, 0⟩], 1, 0⟩
    (by rw [← mine_patternsE_eq]; decide)).2.2 rfl

theorem mineCore_min_support (g : Gspmi) (sequences : List (List Item)) :
    ∀ pat ∈ mineCore g sequences, g.min_support ≤ (pat.support : ℤ) := by
  intro pat hpat
  unfold mineCore at hpat
  rcases List.mem_flatMap.mp hpat with ⟨es, hes, hbody⟩
  split at hbody
  · rename_i hsup
    rcases List.mem_append.mp hbody with h | h
    · split at h
      · rcases List.mem_singleton.mp h with rfl
        exact hsup
      · simp at h
    · rcases hproj : project_level1 g.itemize sequences ⟨0, es.1⟩ with _ | ⟨c, cs⟩
      · rw [hproj] at h
        simp at h
      · rw [hproj] at h
        unfold mine_subpatterns at h
        exact (mineSrcLoop_emitted g _ _ _ pat h).1
  · simp at hbody

/-- The effective integral support threshold denoted by the min_support
argument: an integer count stands for itself, a fraction q stands for
ceil(q times the number of input sequences). -/
def effectiveMinSupport (ms : ℤ ⊕ ℚ) (n : ℕ) : ℤ :=
  match ms with
  | .inl k => k
  | .inr q => ⌈(n : ℚ) * q⌉

/-- C4: every pattern returned by mine has support at least min_support,
where a fractional min_support denotes the integer threshold
ceil(fraction times the number of input sequences). -/
theorem c4_support_bound (sequences : List (List Item)) (itemize : ℤ → ℤ)
    (ms : ℤ ⊕ ℚ) (minI : ℤ) (maxI : Option ℤ) (minW : ℤ) (maxW : Option ℤ)
    (l : List Pattern)
    (h : mine sequences itemize ms minI maxI minW maxW = .ok l) :
    ∀ pat ∈ l, effectiveMinSupport ms sequences.length ≤ (pat.support : ℤ) := by
  intro pat hpat
  cases ms with
  | inl n =>
    rw [mine] at h
    injection h with h
    subst h
    exact mineCore_min_support _ _ pat hpat
  | inr q =>
    rw [mine] at h
    split at h
    · injection h with h
      subst h
      exact mineCore_min_support _ _ pat hpat
    · cases h

/-- Witness for C4 at a concrete input: mine on one singleton sequence with
integral min_support 1 returns the seed pattern, whose support meets the
threshold. -/
theorem c4_support_bound_witness :
    effectiveMinSupport (Sum.inl 1) ([[(⟨0, {0}⟩ : Item)]] : List (List Item)).length ≤
      ((⟨[(⟨0, 0⟩ : Pair)], 1, 0⟩ : Pattern).support : ℤ) := by
  refine c4_support_bound [[⟨0, {0}⟩]] itemizeTen (Sum.inl 1) 0 none 0 none
    [⟨[⟨0, 0⟩], 1, 0⟩] ?_ ⟨[⟨0, 0⟩], 1, 0⟩ (by decide)
  show Except.ok (mineCore ⟨itemizeTen, 1, 0, none, 0, none⟩ [[⟨0, {0}⟩]]) = _
  rw [← mineCoreE_eq]
  exact congrArg Except.ok (by decide)

/-- C5 (counterexample): with min_interval 5 greater than max_interval 3,
mine raises no error and still produces the seed pattern, so the claimed
configuration validation does not exist for the interval bands. -/
theorem c5_config_error_counterexample :
    mine [[⟨0, {0}⟩]] itemizeTen (Sum.inl 1) 5 (some 3) 0 none =
      .ok [⟨[⟨0, 0⟩], 1, 0⟩] := by
  show Except.ok (mineCore ⟨itemizeTen, 1, 5, some 3, 0, none⟩ [[⟨0, {0}⟩]]) = _
  rw [← mineCoreE_eq]
  exact congrArg Except.ok (by decide)

/-- C5 (amended): mine raises a configuration error, before any mining
work, exactly when min_support is a fraction outside the unit interval;
neither an inverted gap band (min_interval > max_interval), nor an inverted
whole-interval band, nor any worker count is validated. -/
theorem c5_config_error_amended (sequences : List (List Item))
    (itemize : ℤ → ℤ) (ms : ℤ ⊕ ℚ) (minI : ℤ) (maxI : Option ℤ) (minW : ℤ)
    (maxW : Option ℤ) :
    (∃ msg, mine sequences itemize ms minI maxI minW maxW = .error msg) ↔
      ∃ q, ms = Sum.inr q ∧ ¬(0 ≤ q ∧ q ≤ 1) := by
  cases ms with
  | inl n => simp [mine]
  | inr q =>
    by_cases h : 0 ≤ q ∧ q ≤ 1
    · simp [mine, h]
    · simp only [mine, if_neg h]
      constructor
      · intro _
        exact ⟨q, rfl, h⟩
      · intro _
        exact ⟨"0 <= min_support <= 1", rfl⟩

/-- C7: generate_postfixes with level1 true yields one postfix per item
containing the projector element in sequence order, with level1 false at
most one postfix at the first interval-and-element match, and each postfix
starts with the residual item of strictly alphabet-greater elements exactly
when that set is non-empty, followed by the later items rebased. -/
theorem c7_generate_postfixes_spec :
    (∀ (itemize : ℤ → ℤ) (s : List Item) (pr : Pair),
      generate_postfixes itemize s pr true = level1Spec s pr ∧
      generate_postfixes itemize s pr false = deepSpec itemize s pr) ∧
    (∀ (E : Finset Elem) (e : Elem), e ∈ E → exclude E e = specResidual E e) := by
  refine ⟨fun itemize s pr =>
    ⟨generate_level1_eq_spec itemize pr s, generate_deep_eq_spec itemize pr s⟩, ?_⟩
  intro E e he
  exact exclude_eq_filter he

/-- Witness for C7 at a concrete input. -/
theorem c7_generate_postfixes_spec_witness :
    generate_postfixes itemizeTen seqU ⟨0, 0⟩ true = level1Spec seqU ⟨0, 0⟩ ∧
    exclude {0, 1, 2} 0 = specResidual {0, 1, 2} 0 :=
  ⟨(c7_generate_postfixes_spec.1 itemizeTen seqU ⟨0, 0⟩).1,
   c7_generate_postfixes_spec.2 {0, 1, 2} 0 (by decide)⟩

/-- C9: the checked generator, which threads the possible ValueError of
elements.index inside exclude, always succeeds: the membership guard in
front of the call protects it, so generate_postfixes is total. -/
theorem c9_generate_postfixes_never_raises :
    ∀ (itemize : ℤ → ℤ) (s : List Item) (pr : Pair) (lvl : Bool),
      generate_postfixesChecked itemize s pr lvl =
        some (generate_postfixes itemize s pr lvl) :=
  fun itemize s pr lvl => generate_postfixesChecked_total itemize pr lvl s

/-- C10: the level-1 generator can yield an empty postfix (match at the
last item with no alphabet-greater residual); project discards empty
postfixes and drops groups that become empty, while project_level1 keeps
every yielded postfix, so a level-1 group can consist solely of empty
postfixes. -/
theorem c10_empty_postfix_handling :
    generate_postfixes itemizeTen [⟨0, {0}⟩] ⟨0, 0⟩ true = [[]] ∧
    (∀ (itemize : ℤ → ℤ) (db : List (List (List Item))) (pr : Pair),
      ∀ grp ∈ project itemize db pr, grp ≠ [] ∧ ∀ p ∈ grp, p ≠ []) ∧
    project_level1 itemizeTen [[⟨0, {0}⟩]] ⟨0, 0⟩ = [[[]]] :=
  ⟨by decide, project_members_nonempty, by decide⟩

/-- Witness for C10 at a concrete projection. -/
theorem c10_empty_postfix_handling_witness :
    ([[(⟨0, {1}⟩ : Item)]] : List (List Item)) ≠ [] ∧
    ∀ p ∈ ([[(⟨0, {1}⟩ : Item)]] : List (List Item)), p ≠ [] :=
  c10_empty_postfix_handling.2.1 itemizeTen [[[⟨0, {0, 1}⟩]]] ⟨0, 0⟩
    [[⟨0, {1}⟩]] (by decide)

/-- C8: on the concrete database S1, S2, S3 with itemize t // 86400 and
max_interval 172800, mine returns, as a set, exactly the five expected
patterns, identically for min_support 2 and for min_support 0.5 (the
effective threshold ceil(0.5 * 3) = 2). -/
theorem c8_basic_mining :
    mine [s1, s2, s3] itemizeDay (Sum.inl 2) 0 (some 172800) 0 none =
      .ok c8Result ∧
    mine [s1, s2, s3] itemizeDay (Sum.inr (1/2 : ℚ)) 0 (some 172800) 0 none =
      .ok c8Result ∧
    c8Result.toFinset = c8Expected.toFinset ∧
    c8Result.length = 5 ∧ c8Expected.toFinset.card = 5 := by
  have hcore : mineCore g8 [s1, s2, s3] = c8Result := by
    rw [← mineCoreE_eq]
    decide
  refine ⟨?_, ?_, by decide, by decide, by decide⟩
  · show Except.ok (mineCore ⟨itemizeDay, 2, 0, some 172800, 0, none⟩ [s1, s2, s3]) = _
    rw [show (⟨itemizeDay, 2, 0, some 172800, 0, none⟩ : Gspmi) = g8 from rfl, hcore]
  · show (if (0:ℚ) ≤ 1/2 ∧ (1/2:ℚ) ≤ 1 then
        Except.ok (mineCore ⟨itemizeDay, ⌈(([s1,s2,s3].length : ℚ)) * (1/2 : ℚ)⌉, 0, some 172800, 0, none⟩ [s1, s2, s3])
      else Except.error "0 <= min_support <= 1") = .ok c8Result
    rw [if_pos (by norm_num)]
    have hceil : (⌈(([s1,s2,s3].length : ℚ)) * (1/2 : ℚ)⌉ : ℤ) = 2 := by
      norm_num [Int.ceil_eq_iff]
    rw [hceil]
    rw [show (⟨itemizeDay, 2, 0, some 172800, 0, none⟩ : Gspmi) = g8 from rfl, hcore]

/-- First-match association lookup in a key-value list. -/
def assocFind (l : List (Pair × ℕ)) (pr : Pair) : Option ℕ :=
  (l.find? (fun x => decide (x.1 = pr))).map (fun x => x.2)

theorem assocFind_map {f : Pair → ℕ} {pr : Pair} :
    ∀ l : List Pair, assocFind (l.map (fun p => (p, f p))) pr =
      if pr ∈ l then some (f pr) else none := by
  intro l
  induction l with
  | nil => rfl
  | cons a t ih =>
    rw [List.map_cons]
    by_cases ha : a = pr
    · subst ha
      unfold assocFind
      rw [List.find?_cons_of_pos _ (by simp)]
      simp
    · unfold assocFind
      rw [List.find?_cons_of_neg _ (by simpa using ha)]
      unfold assocFind at ih
      rw [ih]
      by_cases hm : pr ∈ t
      · rw [if_pos hm, if_pos (List.mem_cons_of_mem _ hm)]
      · rw [if_neg hm, if_neg ?_]
        intro hc
        rcases List.mem_cons.mp hc with h1 | h1
        · exact ha h1.symm
        · exact hm h1

theorem assocFind_counter {g : Gspmi} {pdb : List (List (List Item))}
    {pr : Pair} :
    assocFind (counterItems g pdb) pr =
      if pr ∈ (pdb.flatMap (groupPairs g)).dedup then
        some (pdb.countP (fun grp => decide (pr ∈ groupPairs g grp)))
      else none := by
  unfold counterItems
  rw [assocFind_map]

theorem assocFind_counter_of_mem {g : Gspmi} {pdb : List (List (List Item))}
    {pr : Pair} {n : ℕ} (h : (pr, n) ∈ counterItems g pdb) :
    assocFind (counterItems g pdb) pr = some n := by
  unfold counterItems at h
  rcases List.mem_map.mp h with ⟨p, hp, heq⟩
  injection heq with h1 h2
  subst h1
  subst h2
  rw [assocFind_counter, if_pos hp]

theorem assocFind_counter_some {g : Gspmi} {pdb : List (List (List Item))}
    {pr : Pair} {n : ℕ} (h : assocFind (counterItems g pdb) pr = some n) :
    n = pdb.countP (fun grp => decide (pr ∈ groupPairs g grp)) ∧
      ∃ grp ∈ pdb, pr ∈ groupPairs g grp := by
  rw [assocFind_counter] at h
  split at h
  · rename_i hmem
    injection h with h
    subst h
    rw [List.mem_dedup, List.mem_flatMap] at hmem
    exact ⟨rfl, hmem⟩
  · cases h

/-- The support recorded along one branch of the prefix chain: the counter
value of the last pair in the database obtained by projecting the earlier
pairs one by one. -/
def supportOf (g : Gspmi) : List (List (List Item)) → List Pair → Option ℕ
  | _, [] => none
  | pdb, pr :: rest =>
    match rest with
    | [] => assocFind (counterItems g pdb) pr
    | r :: rs => supportOf g (project g.itemize pdb pr) (r :: rs)

/-- Every pattern emitted by the class-copy miner extends the prefix by a
non-empty pair chain whose chained counter value is its recorded support. -/
theorem mineLoop_supportOf (g : Gspmi) :
    ∀ (pdb : List (List (List Item))) (pre : List Pair)
      (cands : List (Pair × ℕ)),
      (∀ x ∈ cands, x ∈ counterItems g pdb) →
      ∀ pat ∈ Gspmi.mineLoop g pdb pre cands,
        ∃ rest, rest ≠ [] ∧ pat.sequence = pre ++ rest ∧
          supportOf g pdb rest = some pat.support := by
  intro pdb pre cands
  induction pdb, pre, cands using Gspmi.mineLoop.induct g with
  | case1 pdb pre =>
    intro hsub pat hpat
    rw [mineLoop_nil] at hpat
    simp at hpat
  | case2 pdb pre pair support rest ih1 ih2 =>
    intro hsub pat hpat
    rw [mineLoop_cons] at hpat
    rcases List.mem_append.mp hpat with h | h
    · split at h
      · rcases List.mem_append.mp h with h1 | h1
        · rcases hproj : project g.itemize pdb pair with _ | ⟨c, cs⟩
          · rw [hproj, Gspmi.mine_subpatterns, counterItems_nil,
              mineLoop_nil] at h1
            simp at h1
          · rw [hproj, Gspmi.mine_subpatterns] at h1
            rcases ih1 c cs hproj (fun x hx => hx) pat h1 with
              ⟨rest', hne', hseq', hsup'⟩
            refine ⟨pair :: rest', by simp, ?_, ?_⟩
            · rw [hseq', List.append_assoc]
              rfl
            · rcases rest' with _ | ⟨r, rs⟩
              · exact absurd rfl hne'
              · rw [supportOf]
                rw [hproj]
                exact hsup'
        · split at h1
          · rcases List.mem_singleton.mp h1 with rfl
            refine ⟨[pair], by simp, rfl, ?_⟩
            rw [supportOf]
            exact assocFind_counter_of_mem (hsub _ (List.mem_cons_self _ _))
          · simp at h1
      · simp at h
    · exact ih2 (fun x hx => hsub x (List.mem_cons_of_mem _ hx)) pat h

/-- The specification's input invariant on a (postfix of an) input
sequence: non-negative intervals in non-decreasing order. -/
def GoodSeq (s : List Item) : Prop :=
  (∀ it ∈ s, 0 ≤ it.interval) ∧
    s.Pairwise (fun a b => a.interval ≤ b.interval)

instance (s : List Item) : Decidable (GoodSeq s) := by
  unfold GoodSeq
  infer_instance

/-- Every postfix of a well-formed sequence is well-formed: the residual
head has interval 0 and the rebased later items keep non-negative,
non-decreasing intervals. -/
theorem goodSeq_generate {itemize : ℤ → ℤ} {pr : Pair} {lvl : Bool} :
    ∀ {s p : List Item}, GoodSeq s →
      p ∈ generate_postfixes itemize s pr lvl → GoodSeq p := by
  intro s
  induction s with
  | nil => intro p _ hp; simp [generate_postfixes] at hp
  | cons it rest ih =>
    intro p hgood hp
    have hrest : GoodSeq rest := by
      obtain ⟨h1, h2⟩ := hgood
      exact ⟨fun j hj => h1 j (List.mem_cons_of_mem _ hj),
        (List.pairwise_cons.mp h2).2⟩
    rw [generate_postfixes] at hp
    split at hp
    · rcases List.mem_cons.mp hp with h | h
      · subst h
        obtain ⟨h1, h2⟩ := hgood
        have hle : ∀ j ∈ rest, it.interval ≤ j.interval :=
          (List.pairwise_cons.mp h2).1
        unfold matchBody
        constructor
        · intro j hj
          rcases List.mem_append.mp hj with hj1 | hj1
          · split at hj1
            · simp at hj1
            · rcases List.mem_singleton.mp hj1 with rfl
              simp
          · rcases List.mem_map.mp hj1 with ⟨k, hk, rfl⟩
            have := hle k hk
            simp
            omega
        · rw [List.pairwise_append]
          refine ⟨?_, ?_, ?_⟩
          · split
            · simp
            · simp
          · rw [List.pairwise_map]
            apply List.Pairwise.imp ?_ (List.pairwise_cons.mp h2).2
            intro a b hab
            simp
            omega
          · intro x hx y hy
            have hx0 : x.interval = 0 := by
              split at hx
              · simp at hx
              · rcases List.mem_singleton.mp hx with rfl
                rfl
            rcases List.mem_map.mp hy with ⟨k, hk, rfl⟩
            have := hle k hk
            simp [hx0]
            omega
      · split at h
        · exact ih hrest h
        · simp at h
    · exact ih hrest hp

/-- All postfixes of a projected database are well-formed. -/
def GoodPdb (db : List (List (List Item))) : Prop :=
  ∀ grp ∈ db, ∀ p ∈ grp, GoodSeq p

theorem goodPdb_project {g : Gspmi} {db : List (List (List Item))} {pr : Pair}
    (h : GoodPdb db) : GoodPdb (project g.itemize db pr) := by
  intro grp hgrp p hp
  unfold project at hgrp
  rcases List.mem_filterMap.mp hgrp with ⟨seqs, hseqs, hk⟩
  obtain ⟨heq, _⟩ := keepNonempty_eq_some hk
  subst heq
  rcases List.mem_filterMap.mp hp with ⟨s, hs, hfp⟩
  exact goodSeq_generate (h seqs hseqs s hs) (firstPostfix_eq_some hfp).1

theorem goodPdb_level1 {itemize : ℤ → ℤ} {ss : List (List Item)} {pr : Pair}
    (h : ∀ s ∈ ss, GoodSeq s) : GoodPdb (project_level1 itemize ss pr) := by
  intro grp hgrp p hp
  unfold project_level1 at hgrp
  rcases List.mem_filterMap.mp hgrp with ⟨s, hs, hk⟩
  obtain ⟨heq, _⟩ := keepNonempty_eq_some hk
  subst heq
  exact goodSeq_generate (h s hs) hp

theorem keepNonempty_isSome {α : Type} {l : List α} :
    (keepNonempty l).isSome = true ↔ l ≠ [] := by
  cases l with
  | nil => simp [keepNonempty]
  | cons a t => simp [keepNonempty]

theorem length_filterMap_countP {α β : Type} (f : α → Option β) :
    ∀ l : List α, (l.filterMap f).length = l.countP (fun a => (f a).isSome) := by
  intro l
  induction l with
  | nil => rfl
  | cons a t ih =>
    cases hfa : f a with
    | none =>
      rw [List.filterMap_cons_none hfa, List.countP_cons, ih, hfa]
      simp
    | some b =>
      rw [List.filterMap_cons_some hfa, List.countP_cons, List.length_cons,
        ih, hfa]
      simp

/-- With the trivial gap band (min_interval at most 0, infinite
max_interval) every element of every item of a well-formed postfix is
counted. -/
theorem pair_mem_postfixPairs {g : Gspmi} (hminI : g.min_interval ≤ 0)
    (hmaxI : g.max_interval = none) :
    ∀ (p : List Item) (prev : ℤ),
      (∀ j ∈ p, prev ≤ j.interval) →
      p.Pairwise (fun a b => a.interval ≤ b.interval) →
      ∀ it ∈ p, ∀ e ∈ it.elements,
        (⟨g.itemize it.interval, e⟩ : Pair) ∈ postfixPairs g prev p := by
  intro p
  induction p with
  | nil => intro prev _ _ it hit; simp at hit
  | cons hd tl ih =>
    intro prev hprev hpair it hit e he
    rw [postfixPairs]
    rcases List.mem_cons.mp hit with h | h
    · subst h
      apply List.mem_append_left
      have hgap : gapOK g (it.interval - prev) = true := by
        unfold gapOK
        rw [hmaxI]
        have := hprev it (List.mem_cons_self _ _)
        simp
        omega
      rw [if_pos hgap]
      exact List.mem_map.mpr ⟨e, mem_sortedElems.mpr he, rfl⟩
    · apply List.mem_append_right
      exact ih hd.interval (fun j hj => (List.pairwise_cons.mp hpair).1 j hj)
        (List.pairwise_cons.mp hpair).2 it h e he

theorem generate_false_witness {itemize : ℤ → ℤ} {pr : Pair} :
    ∀ {s p : List Item}, p ∈ generate_postfixes itemize s pr false →
      ∃ it ∈ s, pr.element ∈ it.elements ∧ itemize it.interval = pr.interval := by
  intro s
  induction s with
  | nil => intro p hp; simp [generate_postfixes] at hp
  | cons it rest ih =>
    intro p hp
    rw [generate_postfixes] at hp
    split at hp
    · rename_i hcond
      rcases hcond.2 with hlvl | hint
      · cases hlvl
      · exact ⟨it, List.mem_cons_self _ _, hcond.1, hint⟩
    · rcases ih hp with ⟨j, hj, h1, h2⟩
      exact ⟨j, List.mem_cons_of_mem _ hj, h1, h2⟩

/-- With the trivial gap band, a group that survives projection by a pair
had that pair in its candidate set. -/
theorem survive_counted {g : Gspmi} (hminI : g.min_interval ≤ 0)
    (hmaxI : g.max_interval = none) {grp : List (List Item)}
    (hgood : ∀ p ∈ grp, GoodSeq p) {pr : Pair}
    (hs : grp.filterMap (firstPostfix g.itemize pr) ≠ []) :
    pr ∈ groupPairs g grp := by
  rcases hflt : grp.filterMap (firstPostfix g.itemize pr) with _ | ⟨q, qs⟩
  · exact absurd hflt hs
  · have hq : q ∈ grp.filterMap (firstPostfix g.itemize pr) := by
      rw [hflt]
      exact List.mem_cons_self _ _
    rcases List.mem_filterMap.mp hq with ⟨s, hsmem, hfp⟩
    have hgen := (firstPostfix_eq_some hfp).1
    rcases generate_false_witness hgen with ⟨it, hitmem, he, hint⟩
    have hgs := hgood s hsmem
    have hmem := pair_mem_postfixPairs hminI hmaxI s 0 (fun j hj => hgs.1 j hj)
      hgs.2 it hitmem pr.element he
    unfold groupPairs
    rw [List.mem_dedup, List.mem_flatMap]
    refine ⟨s, hsmem, ?_⟩
    have : (⟨g.itemize it.interval, pr.element⟩ : Pair) = pr := by
      cases pr
      simp at hint ⊢
      exact hint
    rw [← this]
    exact hmem

/-- With the trivial gap band, the count of any pair in the projected child
database never exceeds the count of the projector in the parent. -/
theorem child_count_le {g : Gspmi} (hminI : g.min_interval ≤ 0)
    (hmaxI : g.max_interval = none) {pdb : List (List (List Item))}
    (hdb : GoodPdb pdb) (pr q : Pair) :
    (project g.itemize pdb pr).countP
        (fun grp => decide (q ∈ groupPairs g grp)) ≤
      pdb.countP (fun grp => decide (pr ∈ groupPairs g grp)) := by
  calc (project g.itemize pdb pr).countP
        (fun grp => decide (q ∈ groupPairs g grp))
      ≤ (project g.itemize pdb pr).length := List.countP_le_length _
    _ = pdb.countP (fun grp =>
        (keepNonempty (grp.filterMap (firstPostfix g.itemize pr))).isSome) := by
        unfold project
        exact length_filterMap_countP _ pdb
    _ ≤ pdb.countP (fun grp => decide (pr ∈ groupPairs g grp)) := by
        apply List.countP_mono_left
        intro grp hgrp hsome
        have hne := keepNonempty_isSome.mp hsome
        exact decide_eq_true (survive_counted hminI hmaxI
          (fun p hp => hdb grp hgrp p hp) hne)

/-- With the trivial gap band, appending one pair to a chain cannot
increase the chained counter value. -/
theorem supportOf_snoc_le {g : Gspmi} (hminI : g.min_interval ≤ 0)
    (hmaxI : g.max_interval = none) :
    ∀ (rest : List Pair) (pdb : List (List (List Item))), GoodPdb pdb →
      rest ≠ [] → ∀ (q : Pair) (n' : ℕ),
      supportOf g pdb (rest ++ [q]) = some n' →
      ∃ n, supportOf g pdb rest = some n ∧ n' ≤ n := by
  intro rest
  induction rest with
  | nil => intro pdb _ hne; exact absurd rfl hne
  | cons p rest' ih =>
    intro pdb hdb _ q n' hsup
    rcases hr : rest' with _ | ⟨r, rs⟩
    · subst hr
      have hsup' : assocFind (counterItems g (project g.itemize pdb p)) q =
          some n' := hsup
      obtain ⟨hval, grp1, hgrp1, hqmem⟩ := assocFind_counter_some hsup'
      have hparent : ∃ grp0 ∈ pdb, p ∈ groupPairs g grp0 := by
        unfold project at hgrp1
        rcases List.mem_filterMap.mp hgrp1 with ⟨src, hsrc, hk⟩
        obtain ⟨heq, hne'⟩ := keepNonempty_eq_some hk
        exact ⟨src, hsrc, survive_counted hminI hmaxI
          (fun x hx => hdb src hsrc x hx) hne'⟩
      refine ⟨pdb.countP (fun grp => decide (p ∈ groupPairs g grp)), ?_, ?_⟩
      · show assocFind (counterItems g pdb) p = _
        rw [assocFind_counter, if_pos ?_]
        rw [List.mem_dedup, List.mem_flatMap]
        exact hparent
      · rw [hval]
        exact child_count_le hminI hmaxI hdb p q
    · subst hr
      have hsup' : supportOf g (project g.itemize pdb p) ((r :: rs) ++ [q]) =
          some n' := hsup
      rcases ih (project g.itemize pdb p) (goodPdb_project hdb) (by simp) q n'
        hsup' with ⟨n, hn, hle⟩
      refine ⟨n, ?_, hle⟩
      show supportOf g (project g.itemize pdb p) (r :: rs) = some n
      exact hn

/-- Every pattern of the serial miner is either the seed pattern of its
element or carries the chained counter value of its pair chain over the
level-1 projected database of its seed. -/
theorem mine_patterns_decomp (g : Gspmi) (ss : List (List Item)) :
    ∀ pat ∈ Gspmi.mine_patterns g ss,
      ∃ e sup, (e, sup) ∈ elementCounter ss ∧ g.min_support ≤ (sup : ℤ) ∧
        (pat = ⟨[⟨0, e⟩], sup, 0⟩ ∨
         ∃ rest, rest ≠ [] ∧ pat.sequence = ⟨0, e⟩ :: rest ∧
           supportOf g (project_level1 g.itemize ss ⟨0, e⟩) rest =
             some pat.support) := by
  intro pat hpat
  unfold Gspmi.mine_patterns at hpat
  rcases List.mem_flatMap.mp hpat with ⟨es, hes, hbody⟩
  obtain ⟨e, n⟩ := es
  unfold Gspmi.mine_subpatterns_level1 at hbody
  split at hbody
  · rename_i hsup
    refine ⟨e, n, hes, hsup, ?_⟩
    rcases List.mem_append.mp hbody with h | h
    · split at h
      · rcases List.mem_singleton.mp h with rfl
        exact Or.inl rfl
      · simp at h
    · rw [Gspmi.mine_subpatterns] at h
      rcases mineLoop_supportOf g _ _ _ (fun x hx => hx) pat h with
        ⟨rest, hne, hseq, hsup'⟩
      exact Or.inr ⟨rest, hne, hseq, hsup'⟩
  · simp at hbody

/-- C6 (amended): with the default gap band (min_interval at most 0 and an
infinite max_interval) and well-formed input sequences (non-negative,
non-decreasing intervals), extending any returned pattern by one Pair
cannot increase its support: if P and Q are returned from the same serial
mine call and Q.sequence = P.sequence followed by one extra pair, then
Q.support is at most P.support. -/
theorem c6_anti_support_amended (g : Gspmi) (ss : List (List Item))
    (hminI : g.min_interval ≤ 0) (hmaxI : g.max_interval = none)
    (hgood : ∀ s ∈ ss, GoodSeq s) (P Q : Pattern)
    (hP : P ∈ Gspmi.mine_patterns g ss) (hQ : Q ∈ Gspmi.mine_patterns g ss)
    (pr : Pair) (hseq : Q.sequence = P.sequence ++ [pr]) :
    Q.support ≤ P.support := by
  rcases mine_patterns_decomp g ss P hP with ⟨eP, supP, hesP, hgP, hcaseP⟩
  rcases mine_patterns_decomp g ss Q hQ with ⟨eQ, supQ, hesQ, hgQ, hcaseQ⟩
  have hQdeep : ∃ restQ, restQ ≠ [] ∧ Q.sequence = ⟨0, eQ⟩ :: restQ ∧
      supportOf g (project_level1 g.itemize ss ⟨0, eQ⟩) restQ =
        some Q.support := by
    rcases hcaseQ with h | h
    · rcases hcaseP with hp | hp
      · rw [h, hp] at hseq
        simp at hseq
      · rcases hp with ⟨restP, hneP, hseqP, _⟩
        rw [h] at hseq
        simp only [] at hseq
        rw [hseqP] at hseq
        have := congrArg List.length hseq
        simp at this
    · exact h
  rcases hQdeep with ⟨restQ, hneQ, hseqQ, hsupQ⟩
  rcases hcaseP with hp | hp
  · have hPsup : P.support = supP := by rw [hp]
    have hPseq : P.sequence = [⟨0, eP⟩] := by rw [hp]
    rw [hPseq] at hseq
    rw [hseqQ] at hseq
    have heq1 : (⟨0, eQ⟩ : Pair) = ⟨0, eP⟩ := by
      rw [List.cons_append, List.nil_append] at hseq
      exact (List.cons.injEq _ _ _ _ ▸ hseq).1
    have heq2 : restQ = [pr] := by
      rw [List.cons_append, List.nil_append] at hseq
      exact (List.cons.injEq _ _ _ _ ▸ hseq).2
    subst heq2
    rw [heq1] at hsupQ
    have hsup' : assocFind (counterItems g
        (project_level1 g.itemize ss ⟨0, eP⟩)) pr = some Q.support := hsupQ
    obtain ⟨hval, _, _, _⟩ := assocFind_counter_some hsup'
    have hlen : (project_level1 g.itemize ss ⟨0, eP⟩).length =
        ss.countP (fun s => decide (eP ∈ seqElements s)) := by
      unfold project_level1
      rw [length_filterMap_countP]
      apply List.countP_congr
      intro s _
      cases hm : decide (eP ∈ seqElements s) with
      | true =>
        have hmm : eP ∈ seqElements s := of_decide_eq_true hm
        have hne : generate_postfixes g.itemize s ⟨0, eP⟩ true ≠ [] :=
          generate_level1_ne_nil.mpr (mem_seqElements.mp hmm)
        simpa using keepNonempty_isSome.mpr hne
      | false =>
        have hmm : ¬(eP ∈ seqElements s) := of_decide_eq_false hm
        have hemp : generate_postfixes g.itemize s ⟨0, eP⟩ true = [] := by
          by_contra hc
          exact hmm (mem_seqElements.mpr (generate_level1_ne_nil.mp hc))
        simp [hemp, keepNonempty]
    have hsupP : supP = ss.countP (fun s => decide (eP ∈ seqElements s)) :=
      elementCounter_mem hesP
    calc Q.support
        = (project_level1 g.itemize ss ⟨0, eP⟩).countP
            (fun grp => decide (pr ∈ groupPairs g grp)) := hval
      _ ≤ (project_level1 g.itemize ss ⟨0, eP⟩).length := List.countP_le_length _
      _ = ss.countP (fun s => decide (eP ∈ seqElements s)) := hlen
      _ = P.support := by rw [hPsup, hsupP]
  · rcases hp with ⟨restP, hneP, hseqP, hsupP⟩
    rw [hseqP] at hseq
    rw [hseqQ] at hseq
    rw [List.cons_append] at hseq
    have heq1 : (⟨0, eQ⟩ : Pair) = ⟨0, eP⟩ :=
      (List.cons.injEq _ _ _ _ ▸ hseq).1
    have heq2 : restQ = restP ++ [pr] :=
      (List.cons.injEq _ _ _ _ ▸ hseq).2
    subst heq2
    rw [heq1] at hsupQ
    rcases supportOf_snoc_le hminI hmaxI restP
      (project_level1 g.itemize ss ⟨0, eP⟩) (goodPdb_level1 hgood) hneP pr
      Q.support hsupQ with ⟨n, hn, hle⟩
    rw [hsupP] at hn
    injection hn with hn
    rw [← hn] at hle
    exact hle

/-- C6 witness: the amended anti-support theorem applied at the concrete
miner gU on [seqU] with P the seed pattern of element 0 and Q its one-pair
extension. -/
theorem c6_anti_support_amended_witness :
    gU.min_interval ≤ 0 ∧ gU.max_interval = none ∧
    (∀ s ∈ [seqU], GoodSeq s) ∧
    (⟨[⟨0, 0⟩], 1, 0⟩ : Pattern) ∈ Gspmi.mine_patterns gU [seqU] ∧
    (⟨[⟨0, 0⟩, ⟨0, 1⟩], 1, 0⟩ : Pattern) ∈ Gspmi.mine_patterns gU [seqU] ∧
    (⟨[⟨0, 0⟩, ⟨0, 1⟩], 1, 0⟩ : Pattern).sequence =
      (⟨[⟨0, 0⟩], 1, 0⟩ : Pattern).sequence ++ [⟨0, 1⟩] ∧
    (⟨[⟨0, 0⟩, ⟨0, 1⟩], 1, 0⟩ : Pattern).support ≤
      (⟨[⟨0, 0⟩], 1, 0⟩ : Pattern).support := by
  have hP : (⟨[⟨0, 0⟩], 1, 0⟩ : Pattern) ∈ Gspmi.mine_patterns gU [seqU] := by
    rw [← mine_patternsE_eq]; decide
  have hQ : (⟨[⟨0, 0⟩, ⟨0, 1⟩], 1, 0⟩ : Pattern) ∈
      Gspmi.mine_patterns gU [seqU] := by
    rw [← mine_patternsE_eq]; decide
  exact ⟨by decide, rfl, by decide, hP, hQ, rfl,
    c6_anti_support_amended gU [seqU] (by decide) rfl (by decide) _ _ hP hQ
      ⟨0, 1⟩ rfl⟩

/-- C6 counterexample to the unamended claim: with a finite max_interval
(gap band [0, 15], itemize t / 10) on [sG1, sG2] the miner returns patP =
[(0,0),(2,1)] with support 1 and its one-pair extension patQ =
[(0,0),(2,1),(0,2)] with support 2, so extending a returned pattern by one
Pair increased its support. -/
theorem c6_anti_support_counterexample :
    patP ∈ Gspmi.mine_patterns gC6 [sG1, sG2] ∧
    patQ ∈ Gspmi.mine_patterns gC6 [sG1, sG2] ∧
    patQ.sequence = patP.sequence ++ [⟨0, 2⟩] ∧
    ¬(patQ.support ≤ patP.support) := by
  refine ⟨?_, ?_, rfl, by decide⟩
  · rw [← mine_patternsE_eq]; decide
  · rw [← mine_patternsE_eq]; decide
